import Mathlib

/-!
Shallow embedding of the Keccak STARK from keccak_stark_multi.rs: the trace
generator, the native (packed) constraint evaluator, the recursive (circuit)
constraint evaluator, and a reference word-level Keccak-f permutation used
to state round-trip properties.  Machine integers are modelled as Nat/Int
with explicit masking; field elements are modelled as integers (every value
stored in a generated trace row is a natural number below 2^32, so integer
arithmetic coincides with the arithmetic of any 64-bit prime field on all
quantities the theorems mention).  Crate modules that are referenced by the
source file but are not themselves part of it (the column layout, the logic
gadgets, the round-constant table and the round-flag utility) are modelled
from the specification; each such definition is marked.
-/

namespace KeccakStark

/-- Number of rounds in a Keccak permutation (`NUM_ROUNDS` in the source). -/
def NUM_ROUNDS : Nat := 24

/-- Number of 64-bit lanes in the Keccak state (`NUM_INPUTS` in the source). -/
def NUM_INPUTS : Nat := 25

/-- Injection of a boolean into the field (modelled as the integers). -/
def b2i (b : Bool) : Int := if b then 1 else 0

/-- Modelled from the spec: the native bitwise gadget `xor(bits) -> bit` of the
logic module, folding field-encoded booleans (a value encodes `true` exactly
when it equals one). -/
def xorNative (xs : List Int) : Int :=
  xs.foldl (fun acc x => if acc = 1 ↔ x = 1 then 0 else 1) 0

/-- Modelled from the spec: the native bitwise gadget `andn(a, b) -> (¬a)∧b`
of the logic module, over field-encoded booleans. -/
def andnNative (x y : Int) : Int :=
  if ¬x = 1 ∧ y = 1 then 1 else 0

/-- Modelled from the spec: the polynomial form `xor_gen` of the xor gadget,
`x + y - x·(2y)`, identical in its native and in-circuit versions. -/
def xor_gen {R : Type} [CommRing R] (x y : R) : R :=
  x + y - x * (2 * y)

/-- Modelled from the spec: the polynomial form `xor3_gen` of the ternary xor
gadget, defined by nesting `xor_gen`. -/
def xor3_gen {R : Type} [CommRing R] (x y z : R) : R :=
  xor_gen x (xor_gen y z)

/-- Modelled from the spec: the polynomial form `andn_gen` of the andn gadget,
`(1 - x)·y`, identical in its native and in-circuit versions. -/
def andn_gen {R : Type} [CommRing R] (x y : R) : R :=
  (1 - x) * y

/-- Modelled from the spec: the in-circuit xor gadget, with semantics
identical to the native `xor_gen`. -/
def xor_gen_circuit {R : Type} [CommRing R] (x y : R) : R :=
  xor_gen x y

/-- Modelled from the spec: the in-circuit ternary xor gadget, with semantics
identical to the native `xor3_gen`. -/
def xor3_gen_circuit {R : Type} [CommRing R] (x y z : R) : R :=
  xor3_gen x y z

/-- Modelled from the spec: the in-circuit andn gadget, with semantics
identical to the native `andn_gen`. -/
def andn_gen_circuit {R : Type} [CommRing R] (x y : R) : R :=
  andn_gen x y

/-- The plonky2 circuit-builder operation `sub_extension`: wire subtraction. -/
def sub_extension {R : Type} [CommRing R] (a b : R) : R := a - b

/-- The plonky2 circuit-builder operation `mul_extension`: wire product. -/
def mul_extension {R : Type} [CommRing R] (a b : R) : R := a * b

/-- The plonky2 circuit-builder operation `mul_sub_extension`, which returns
`a * b - c`. -/
def mul_sub_extension {R : Type} [CommRing R] (a b c : R) : R := a * b - c

/-- The plonky2 circuit-builder operation `mul_add_extension`, which returns
`a * b + c`. -/
def mul_add_extension {R : Type} [CommRing R] (a b c : R) : R := a * b + c

/-- The plonky2 circuit-builder operation `add_many_extension`: sum of a list
of wires. -/
def add_many_extension {R : Type} [CommRing R] (xs : List R) : R := xs.sum

/-- The plonky2 circuit-builder operation `mul_many_extension`: product of a
list of wires. -/
def mul_many_extension {R : Type} [CommRing R] (xs : List R) : R := xs.prod

/-- The plonky2 helper `reduce_with_powers_ext_circuit` at base `alpha`:
`sum of terms[i] * alpha^i`, computed by a reversed fold. -/
def reduce_with_powers_ext_circuit {R : Type} [CommRing R]
    (terms : List R) (alpha : R) : R :=
  terms.reverse.foldl (fun acc t => alpha * acc + t) 0

/-- Modelled from the spec: the round-constant table of the constants module
(the 24 standard 64-bit Keccak round constants, validated below against the
published Keccak-f[1600] zero-state test vector through the reference
permutation). -/
def RC_TABLE : List Nat :=
  [0x0000000000000001, 0x0000000000008082, 0x800000000000808a,
   0x8000000080008000, 0x000000000000808b, 0x0000000080000001,
   0x8000000080008081, 0x8000000000008009, 0x000000000000008a,
   0x0000000000000088, 0x0000000080008009, 0x000000008000000a,
   0x000000008000808b, 0x800000000000008b, 0x8000000000008089,
   0x8000000000008003, 0x8000000000008002, 0x8000000000000080,
   0x000000000000800a, 0x800000008000000a, 0x8000000080008081,
   0x8000000000008080, 0x0000000080000001, 0x8000000080008008]

/-- Modelled from the spec: `rc_value(round)`, the 64-bit round constant of a
round. -/
def rc_value (round : Nat) : Nat := RC_TABLE.getD round 0

/-- Modelled from the spec: `rc_value_bit(round, i)`, bit `i` of the round
constant of a round. -/
def rc_value_bit (round i : Nat) : Nat := (rc_value round >>> i) &&& 1

/-- Modelled from the spec: the standard Keccak rotation-offset table
`R[x][y]` used by the fixed rho/pi re-indexing (validated below against the
published zero-state test vector through the reference permutation). -/
def rotOffset (x y : Fin 5) : Nat :=
  ([[0, 36, 3, 41, 18],
    [1, 44, 10, 45, 2],
    [62, 6, 43, 15, 61],
    [28, 55, 25, 21, 56],
    [27, 20, 39, 8, 14]].getD x.val []).getD y.val 0

/-- Modelled from the spec: the fixed rho/pi index transform behind `reg_b`:
`B[x, y, z]` is an alias for `A'[(x + 3y) % 5, x, (z + 64 - R[x2][y2]) % 64]`
where `(x2, y2) = ((x + 3y) % 5, x)`. -/
def bIdx (x y : Fin 5) (z : Fin 64) : Fin 5 × Fin 5 × Fin 64 :=
  let i : Fin 5 := x + 3 * y
  (i, x, ⟨(z.val + 64 - rotOffset i x) % 64, Nat.mod_lt _ (by omega)⟩)

/-- One trace row, with one field per register family of the column layout.
Modelled from the spec: the column layout is an internal choice, so the row
is represented by named registers rather than flat indices; `A'''` has
dedicated registers only for lane (0,0) and aliases `A''` elsewhere, and `B`
is an alias into `A'` (see `reg_a_prime_prime_prime` and `reg_b` below). -/
structure KRow (R : Type) where
  a : Fin 5 → Fin 5 → Fin 2 → R
  c : Fin 5 → Fin 64 → R
  cPrime : Fin 5 → Fin 64 → R
  aPrime : Fin 5 → Fin 5 → Fin 64 → R
  aPrimePrime : Fin 5 → Fin 5 → Fin 2 → R
  aPrimePrime00Bit : Fin 64 → R
  aPrimePrimePrime00 : Fin 2 → R
  step : Fin 24 → R
  filter : R

namespace KRow

/-- Modelled from the spec: the registers behind `reg_a_prime_prime_prime`:
lane (0,0) of `A'''` has its own pair of registers, every other lane aliases
the `A''` registers (the iota step only changes lane (0,0)). -/
def reg_a_prime_prime_prime {R : Type} (v : KRow R) (x y : Fin 5) (l : Fin 2) : R :=
  if x = 0 ∧ y = 0 then v.aPrimePrimePrime00 l else v.aPrimePrime x y l

/-- Modelled from the spec: the registers behind `reg_b`: a pure index
transform into the `A'` registers given by `bIdx`. -/
def reg_b {R : Type} (v : KRow R) (x y : Fin 5) (z : Fin 64) : R :=
  v.aPrime (bIdx x y z).1 (bIdx x y z).2.1 (bIdx x y z).2.2

end KRow

/-- The bit-reassembly fold shared by the generator and the native evaluator:
`(start..start+32).rev().fold(0, |acc, z| acc.double() + g(z))`, the binary
place-value sum of 32 bit expressions. -/
def reassemble {R : Type} [CommRing R] (g : Nat → R) (start : Nat) : R :=
  ((List.range' start 32).reverse).foldl (fun acc z => 2 * acc + g z) 0

/-- Bit `k` of a stored 32-bit limb, as the generator extracts it:
`((limb.to_canonical_u64() as u32) >> k) & 1 != 0`, re-encoded as a field
boolean. -/
def limb_bit (v : Int) (k : Nat) : Int :=
  if ((v.toNat % 2 ^ 32) >>> k) &&& 1 ≠ 0 then 1 else 0

/-- Index of the limb (0 = low, 1 = high) that holds bit `z` of a lane,
`z / 32` in the source. -/
def limbIdx (z : Fin 64) : Fin 2 := ⟨z.val / 32, by omega⟩

/-- The generated `C[x, z]` registers:
`xor(A[x, 0, z], A[x, 1, z], A[x, 2, z], A[x, 3, z], A[x, 4, z])` with each
bit extracted from the stored limbs by shifting. -/
def gen_c (aIn : Fin 5 → Fin 5 → Fin 2 → Int) (x : Fin 5) (z : Fin 64) : Int :=
  xorNative (([0, 1, 2, 3, 4] : List (Fin 5)).map fun i =>
    limb_bit (aIn x i (limbIdx z)) (z.val % 32))

/-- The generated `C'[x, z]` registers:
`xor(C[x, z], C[x - 1, z], C[x + 1, z - 1])` (indices mod 5 and mod 64). -/
def gen_c_prime (aIn : Fin 5 → Fin 5 → Fin 2 → Int) (x : Fin 5) (z : Fin 64) : Int :=
  xorNative [gen_c aIn x z, gen_c aIn (x + 4) z, gen_c aIn (x + 1) (z + 63)]

/-- The generated `A'[x, y, z]` registers:
`xor(A[x, y, z], C[x, z], C'[x, z])`. -/
def gen_a_prime (aIn : Fin 5 → Fin 5 → Fin 2 → Int) (x y : Fin 5) (z : Fin 64) : Int :=
  xorNative [limb_bit (aIn x y (limbIdx z)) (z.val % 32),
    gen_c aIn x z, gen_c_prime aIn x z]

/-- The generated `B[x, y, z]` view: the `A'` register selected by the fixed
rho/pi index transform. -/
def gen_b (aIn : Fin 5 → Fin 5 → Fin 2 → Int) (x y : Fin 5) (z : Fin 64) : Int :=
  gen_a_prime aIn (bIdx x y z).1 (bIdx x y z).2.1 (bIdx x y z).2.2

/-- One bit of the generated `A''[x, y]` value:
`xor(B[x, y, z], andn(B[x + 1, y, z], B[x + 2, y, z]))`. -/
def gen_chi_bit (aIn : Fin 5 → Fin 5 → Fin 2 → Int) (x y : Fin 5) (z : Fin 64) : Int :=
  xorNative [gen_b aIn x y z, andnNative (gen_b aIn (x + 1) y z) (gen_b aIn (x + 2) y z)]

/-- The generated `A''[x, y]` limbs, reassembled from the chi bits by binary
place value (limb 0 from bits 0..32, limb 1 from bits 32..64). -/
def gen_a_prime_prime (aIn : Fin 5 → Fin 5 → Fin 2 → Int) (x y : Fin 5) (l : Fin 2) : Int :=
  reassemble (fun z => gen_chi_bit aIn x y ⟨z % 64, Nat.mod_lt _ (by omega)⟩) (32 * l.val)

/-- The 64-bit value `A''[0, 0]` recombined from its stored limbs,
`val_lo | (val_hi << 32)`. -/
def gen_val (aIn : Fin 5 → Fin 5 → Fin 2 → Int) : Nat :=
  (gen_a_prime_prime aIn 0 0 0).toNat ||| ((gen_a_prime_prime aIn 0 0 1).toNat <<< 32)

/-- The generated explicit bit decomposition of `A''[0, 0]`: bit `i` of
`gen_val`, as produced by the shift-and-mask scan of the source. -/
def gen_bit00 (aIn : Fin 5 → Fin 5 → Fin 2 → Int) (i : Fin 64) : Int :=
  Int.ofNat ((gen_val aIn >>> i.val) &&& 1)

/-- The generated `A'''[0, 0]` limbs: the `A''[0, 0]` limbs xor-ed with the
matching half of the round constant at the integer level. -/
def gen_appp00 (aIn : Fin 5 → Fin 5 → Fin 2 → Int) (round : Nat) (l : Fin 2) : Int :=
  if l = 0 then
    Int.ofNat ((gen_a_prime_prime aIn 0 0 0).toNat ^^^ (rc_value round &&& ((1 <<< 32) - 1)))
  else
    Int.ofNat ((gen_a_prime_prime aIn 0 0 1).toNat ^^^ (rc_value round >>> 32))

/-- The body of `generate_trace_row_for_round`: given the row with its input
registers `A` already populated and a round index, populate every other
register family of the row (the step flag of the round, `C`, `C'`, `A'`,
`A''`, the bit decomposition of `A''[0, 0]` and `A'''[0, 0]`); the filter
register is left at zero. -/
def generate_trace_row_for_round (aIn : Fin 5 → Fin 5 → Fin 2 → Int)
    (round : Nat) : KRow Int where
  a := aIn
  c := gen_c aIn
  cPrime := gen_c_prime aIn
  aPrime := gen_a_prime aIn
  aPrimePrime := gen_a_prime_prime aIn
  aPrimePrime00Bit := gen_bit00 aIn
  aPrimePrimePrime00 := gen_appp00 aIn round
  step := fun s => if s.val = round then 1 else 0
  filter := 0

/-- The input registers of the first row of a permutation block:
`rows[0][reg_a(x, y)] = input[y * 5 + x] & 0xFFFFFFFF` (low limb) and
`input[y * 5 + x] >> 32` (high limb). -/
def input_limbs (input : Fin 25 → Nat) (x y : Fin 5) (l : Fin 2) : Int :=
  if l = 0 then Int.ofNat (input ⟨y.val * 5 + x.val, by omega⟩ &&& 0xFFFFFFFF)
  else Int.ofNat (input ⟨y.val * 5 + x.val, by omega⟩ >>> 32)

/-- The body of `copy_output_to_input`: the input registers of the next row
are the `A'''` registers of the previous row, for every lane. -/
def copy_output_to_input (prev : KRow Int) (x y : Fin 5) (l : Fin 2) : Int :=
  prev.reg_a_prime_prime_prime x y l

/-- Row `r` of the 24-row block `generate_trace_rows_for_perm` builds for one
instance: row 0 is generated from the instance input, each later row from
the copied `A'''` output of its predecessor. -/
def perm_round_row (input : Fin 25 → Nat) : Nat → KRow Int
  | 0 => generate_trace_row_for_round (input_limbs input) 0
  | r + 1 =>
    generate_trace_row_for_round
      (copy_output_to_input (perm_round_row input r)) (r + 1)

/-- The 24-row block `generate_trace_rows_for_perm` produces for one
instance. -/
def generate_trace_rows_for_perm (input : Fin 25 → Nat) : List (KRow Int) :=
  (List.range NUM_ROUNDS).map (perm_round_row input)

/-- Setting the filter register of a row to one
(`rows_for_perm[NUM_ROUNDS - 1][REG_FILTER] = F::ONE`). -/
def set_filter (v : KRow Int) : KRow Int := { v with filter := 1 }

/-- The 24-row block of a real (non-padding) instance: the block of the
instance with the filter register of its last row set to one. -/
def real_block (input : Fin 25 → Nat) : List (KRow Int) :=
  (generate_trace_rows_for_perm input).set (NUM_ROUNDS - 1)
    (set_filter (perm_round_row input (NUM_ROUNDS - 1)))

/-- The all-zero-input padding block (`pad_rows` in the source). -/
def pad_rows : List (KRow Int) :=
  generate_trace_rows_for_perm (fun _ => 0)

/-- Rust `usize::next_power_of_two`: the smallest power of two greater than
or equal to the argument (one on zero). -/
def next_power_of_two (n : Nat) : Nat := 2 ^ Nat.clog 2 n

/-- The padding loop of `generate_trace_rows`: extend the row list by whole
copies of the padding block while it is shorter than the target length. -/
def pad_loop (rows : List (KRow Int)) (num_rows : Nat) : List (KRow Int) :=
  if h : rows.length < num_rows then pad_loop (rows ++ pad_rows) num_rows else rows
termination_by num_rows - rows.length
decreasing_by
  have hp : pad_rows.length = 24 := rfl
  simp only [List.length_append, hp]
  omega


/-- The body of `generate_trace_rows`: the real blocks in input order,
extended by copies of the padding block until the target length
`next_power_of_two(max(24 * num_instances, min_rows))` is reached, then
truncated to exactly that length (the `drain`). -/
def generate_trace_rows (inputs : List (Fin 25 → Nat)) (min_rows : Nat) :
    List (KRow Int) :=
  let num_rows := next_power_of_two (max (inputs.length * NUM_ROUNDS) min_rows)
  (pad_loop (inputs.flatMap real_block) num_rows).take num_rows

/-- The body of `generate_public_inputs`: fifty field elements, where entry
`2i` is the low 32 bits and entry `2i + 1` the high 32 bits of output lane
`i`. -/
def generate_public_inputs (output : Fin 25 → Nat) (k : Fin 50) : Int :=
  if k.val % 2 = 0 then Int.ofNat (output ⟨k.val / 2, by omega⟩ &&& 0xFFFFFFFF)
  else Int.ofNat (output ⟨k.val / 2, by omega⟩ >>> 32)

/-- Reduction of an overshooting bit index into `Fin 64` (the ranges the
evaluator iterates over never actually overshoot). -/
def finz (z : Nat) : Fin 64 := ⟨z % 64, Nat.mod_lt _ (by omega)⟩

/-- Modelled from the spec: the per-row constraints of the external
round-flag utility (`eval_round_flags`): each step flag is boolean and
exactly one step flag is set per row. -/
def round_flags_local {R : Type} [CommRing R] (lv : KRow R) : List R :=
  ((List.finRange 24).map fun r => lv.step r * (lv.step r - 1))
  ++ [((List.finRange 24).map lv.step).sum - 1]

/-- Modelled from the spec: the transition constraints of the external
round-flag utility: the one-hot advances cyclically with period 24, so the
next row's flag at `(r + 1) % 24` equals this row's flag at `r`. -/
def round_flags_transition {R : Type} [CommRing R] (lv nv : KRow R) : List R :=
  (List.finRange 24).map fun r => nv.step (r + 1) - lv.step r

/-- The filter booleanness constraint `filter * (filter - 1)`. -/
def filter_boolean_constraint {R : Type} [CommRing R] (lv : KRow R) : R :=
  lv.filter * (lv.filter - 1)

/-- The constraint `(1 - step[23]) * filter`: off the final round the filter
must be off. -/
def filter_final_step_constraint {R : Type} [CommRing R] (lv : KRow R) : R :=
  (1 - lv.step 23) * lv.filter

/-- The public-input index `2 * (5y + x) + l` the output-match constraint
reads for limb `l` of lane `(x, y)`. -/
def pubIndex (x y : Fin 5) (l : Fin 2) : Fin 50 :=
  ⟨2 * (5 * y.val + x.val) + l.val, by omega⟩

/-- The output-match transition constraint:
`filter * (A'''[x, y] limb - public_input[2(5y + x) + limb])`. -/
def output_match_constraint {R : Type} [CommRing R] (lv : KRow R)
    (pub : Fin 50 → R) (x y : Fin 5) (l : Fin 2) : R :=
  lv.filter * (lv.reg_a_prime_prime_prime x y l - pub (pubIndex x y l))

/-- The theta-diffusion constraint
`C'[x, z] - xor3(C[x, z], C[x - 1, z], C[x + 1, z - 1])`. -/
def c_prime_constraint {R : Type} [CommRing R] (lv : KRow R)
    (x : Fin 5) (z : Fin 64) : R :=
  lv.cPrime x z - xor3_gen (lv.c x z) (lv.c (x + 4) z) (lv.c (x + 1) (z + 63))

/-- The input-limb reconstruction constraint: limb `l` of `A[x, y]`
re-derived bit-wise as `xor3(A'[x, y, z], C[x, z], C'[x, z])` must equal the
stored limb. -/
def a_limb_constraint {R : Type} [CommRing R] (lv : KRow R)
    (x y : Fin 5) (l : Fin 2) : R :=
  reassemble (fun z =>
      xor3_gen (lv.aPrime x y (finz z)) (lv.c x (finz z)) (lv.cPrime x (finz z)))
    (32 * l.val) - lv.a x y l

/-- The chi-input difference `sum of A'[x, 0..5, z] minus C'[x, z]`. -/
def parity_diff {R : Type} [CommRing R] (lv : KRow R) (x : Fin 5) (z : Fin 64) : R :=
  (([0, 1, 2, 3, 4] : List (Fin 5)).map fun i => lv.aPrime x i z).sum - lv.cPrime x z

/-- The chi-input parity constraint `diff * (diff - 2) * (diff - 4)`. -/
def parity_constraint {R : Type} [CommRing R] (lv : KRow R)
    (x : Fin 5) (z : Fin 64) : R :=
  parity_diff lv x z * (parity_diff lv x z - 2) * (parity_diff lv x z - 4)

/-- The chi-output reconstruction constraint: limb `l` of `A''[x, y]`
re-derived bit-wise as `xor(B[x, y, z], andn(B[x + 1, y, z], B[x + 2, y, z]))`
must equal the stored limb. -/
def a_prime_prime_constraint {R : Type} [CommRing R] (lv : KRow R)
    (x y : Fin 5) (l : Fin 2) : R :=
  reassemble (fun z =>
      xor_gen (lv.reg_b x y (finz z))
        (andn_gen (lv.reg_b (x + 1) y (finz z)) (lv.reg_b (x + 2) y (finz z))))
    (32 * l.val) - lv.aPrimePrime x y l

/-- The bit-decomposition constraint: limb `l` of `A''[0, 0]` re-derived from
the explicit bit registers must equal the stored limb. -/
def bit_decomp_constraint {R : Type} [CommRing R] (lv : KRow R) (l : Fin 2) : R :=
  reassemble (fun z => lv.aPrimePrime00Bit (finz z)) (32 * l.val)
    - lv.aPrimePrime 0 0 l

/-- The one-hot selection of bit `i` of the current round constant:
the sum over rounds of `step[r] * rc_value_bit(r, i)`. -/
def rc_bit_selected {R : Type} [CommRing R] (lv : KRow R) (i : Nat) : R :=
  (List.finRange 24).foldl
    (fun acc r => acc + lv.step r * (rc_value_bit r.val i : R)) 0

/-- The iota constraint: limb `l` of `A'''[0, 0]` re-derived from
`xor(bit[i], selected round-constant bit)` must equal the stored limb. -/
def iota_constraint {R : Type} [CommRing R] (lv : KRow R) (l : Fin 2) : R :=
  reassemble (fun z =>
      xor_gen (lv.aPrimePrime00Bit (finz z)) (rc_bit_selected lv z))
    (32 * l.val) - lv.aPrimePrimePrime00 l

/-- The round-chaining transition constraint:
`(1 - step[23]) * (A'''[x, y] limb - next row A[x, y] limb)`. -/
def chaining_constraint {R : Type} [CommRing R] (lv nv : KRow R)
    (x y : Fin 5) (l : Fin 2) : R :=
  (1 - lv.step 23) * (lv.reg_a_prime_prime_prime x y l - nv.a x y l)

/-- The per-row (non-transition) constraints `eval_packed_generic` emits, in
emission order: round flags, filter booleanness, filter/final-step, the
theta-diffusion identities, the input-limb reconstructions, the chi-input
parity cubics, the chi-output reconstructions, the bit decomposition of
`A''[0, 0]` and the iota reconstructions.  (The pulse constraints concern
the five auxiliary columns owned by the external pulse utility, which are
not part of the rows this file generates; per the spec they are out of
scope.) -/
def eval_packed_generic_local {R : Type} [CommRing R] (lv : KRow R) : List R :=
  round_flags_local lv
  ++ [filter_boolean_constraint lv, filter_final_step_constraint lv]
  ++ ((List.finRange 5).flatMap fun x =>
      (List.finRange 64).map fun z => c_prime_constraint lv x z)
  ++ ((List.finRange 5).flatMap fun x => (List.finRange 5).flatMap fun y =>
      [a_limb_constraint lv x y 0, a_limb_constraint lv x y 1])
  ++ ((List.finRange 5).flatMap fun x =>
      (List.finRange 64).map fun z => parity_constraint lv x z)
  ++ ((List.finRange 5).flatMap fun x => (List.finRange 5).flatMap fun y =>
      [a_prime_prime_constraint lv x y 0, a_prime_prime_constraint lv x y 1])
  ++ [bit_decomp_constraint lv 0, bit_decomp_constraint lv 1]
  ++ [iota_constraint lv 0, iota_constraint lv 1]

/-- The transition constraints `eval_packed_generic` emits, in emission
order: the round-flag cyclic advance, the output-match constraints and the
round-chaining constraints. -/
def eval_packed_generic_transition {R : Type} [CommRing R] (lv nv : KRow R)
    (pub : Fin 50 → R) : List R :=
  round_flags_transition lv nv
  ++ ((List.finRange 5).flatMap fun x => (List.finRange 5).flatMap fun y =>
      [output_match_constraint lv pub x y 0, output_match_constraint lv pub x y 1])
  ++ ((List.finRange 5).flatMap fun x => (List.finRange 5).flatMap fun y =>
      [chaining_constraint lv nv x y 0, chaining_constraint lv nv x y 1])

/-- The circuit form of the filter booleanness constraint:
`mul_sub_extension(filter, filter, filter)`. -/
def filter_boolean_constraint_circuit {R : Type} [CommRing R] (lv : KRow R) : R :=
  mul_sub_extension lv.filter lv.filter lv.filter

/-- The circuit form of the filter/final-step constraint. -/
def filter_final_step_constraint_circuit {R : Type} [CommRing R] (lv : KRow R) : R :=
  mul_extension (sub_extension 1 (lv.step 23)) lv.filter

/-- The circuit form of the output-match constraint. -/
def output_match_constraint_circuit {R : Type} [CommRing R] (lv : KRow R)
    (pub : Fin 50 → R) (x y : Fin 5) (l : Fin 2) : R :=
  mul_extension lv.filter
    (sub_extension (lv.reg_a_prime_prime_prime x y l) (pub (pubIndex x y l)))

/-- The circuit form of the theta-diffusion constraint. -/
def c_prime_constraint_circuit {R : Type} [CommRing R] (lv : KRow R)
    (x : Fin 5) (z : Fin 64) : R :=
  sub_extension (lv.cPrime x z)
    (xor3_gen_circuit (lv.c x z) (lv.c (x + 4) z) (lv.c (x + 1) (z + 63)))

/-- The circuit form of the input-limb reconstruction constraint, using
`reduce_with_powers_ext_circuit` at base two over the bit list. -/
def a_limb_constraint_circuit {R : Type} [CommRing R] (lv : KRow R)
    (x y : Fin 5) (l : Fin 2) : R :=
  sub_extension
    (reduce_with_powers_ext_circuit
      ((List.range' (32 * l.val) 32).map fun z =>
        xor3_gen_circuit (lv.aPrime x y (finz z)) (lv.c x (finz z))
          (lv.cPrime x (finz z))) 2)
    (lv.a x y l)

/-- The circuit form of the chi-input parity constraint. -/
def parity_constraint_circuit {R : Type} [CommRing R] (lv : KRow R)
    (x : Fin 5) (z : Fin 64) : R :=
  mul_many_extension
    [sub_extension
        (add_many_extension (([0, 1, 2, 3, 4] : List (Fin 5)).map fun i => lv.aPrime x i z))
        (lv.cPrime x z),
      sub_extension
        (sub_extension
          (add_many_extension (([0, 1, 2, 3, 4] : List (Fin 5)).map fun i => lv.aPrime x i z))
          (lv.cPrime x z)) 2,
      sub_extension
        (sub_extension
          (add_many_extension (([0, 1, 2, 3, 4] : List (Fin 5)).map fun i => lv.aPrime x i z))
          (lv.cPrime x z)) 4]

/-- The circuit form of the chi-output reconstruction constraint. -/
def a_prime_prime_constraint_circuit {R : Type} [CommRing R] (lv : KRow R)
    (x y : Fin 5) (l : Fin 2) : R :=
  sub_extension
    (reduce_with_powers_ext_circuit
      ((List.range' (32 * l.val) 32).map fun z =>
        xor_gen_circuit (lv.reg_b x y (finz z))
          (andn_gen_circuit (lv.reg_b (x + 1) y (finz z))
            (lv.reg_b (x + 2) y (finz z)))) 2)
    (lv.aPrimePrime x y l)

/-- The circuit form of the bit-decomposition constraint. -/
def bit_decomp_constraint_circuit {R : Type} [CommRing R] (lv : KRow R)
    (l : Fin 2) : R :=
  sub_extension
    (reduce_with_powers_ext_circuit
      ((List.range' (32 * l.val) 32).map fun z => lv.aPrimePrime00Bit (finz z)) 2)
    (lv.aPrimePrime 0 0 l)

/-- The circuit form of the one-hot round-constant-bit selection, folded with
`mul_add_extension`. -/
def rc_bit_selected_circuit {R : Type} [CommRing R] (lv : KRow R) (i : Nat) : R :=
  (List.finRange 24).foldl
    (fun acc r => mul_add_extension (lv.step r) ((rc_value_bit r.val i : R)) acc) 0

/-- The circuit form of the iota constraint. -/
def iota_constraint_circuit {R : Type} [CommRing R] (lv : KRow R) (l : Fin 2) : R :=
  sub_extension
    (reduce_with_powers_ext_circuit
      ((List.range' (32 * l.val) 32).map fun z =>
        xor_gen_circuit (lv.aPrimePrime00Bit (finz z)) (rc_bit_selected_circuit lv z)) 2)
    (lv.aPrimePrimePrime00 l)

/-- The circuit form of the round-chaining constraint:
`mul_sub_extension(step[23], diff, diff)` with `diff` the next-input minus
current-output difference. -/
def chaining_constraint_circuit {R : Type} [CommRing R] (lv nv : KRow R)
    (x y : Fin 5) (l : Fin 2) : R :=
  mul_sub_extension (lv.step 23)
    (sub_extension (nv.a x y l) (lv.reg_a_prime_prime_prime x y l))
    (sub_extension (nv.a x y l) (lv.reg_a_prime_prime_prime x y l))

/-- The per-row constraints `eval_ext_circuit` emits, in emission order,
mirroring `eval_packed_generic_local` (the round-flag constraints are the
recursive form of the same modelled utility; the pulse constraints are out
of scope as in the native list). -/
def eval_ext_circuit_local {R : Type} [CommRing R] (lv : KRow R) : List R :=
  round_flags_local lv
  ++ [filter_boolean_constraint_circuit lv, filter_final_step_constraint_circuit lv]
  ++ ((List.finRange 5).flatMap fun x =>
      (List.finRange 64).map fun z => c_prime_constraint_circuit lv x z)
  ++ ((List.finRange 5).flatMap fun x => (List.finRange 5).flatMap fun y =>
      [a_limb_constraint_circuit lv x y 0, a_limb_constraint_circuit lv x y 1])
  ++ ((List.finRange 5).flatMap fun x =>
      (List.finRange 64).map fun z => parity_constraint_circuit lv x z)
  ++ ((List.finRange 5).flatMap fun x => (List.finRange 5).flatMap fun y =>
      [a_prime_prime_constraint_circuit lv x y 0, a_prime_prime_constraint_circuit lv x y 1])
  ++ [bit_decomp_constraint_circuit lv 0, bit_decomp_constraint_circuit lv 1]
  ++ [iota_constraint_circuit lv 0, iota_constraint_circuit lv 1]

/-- The transition constraints `eval_ext_circuit` emits, in emission order,
mirroring `eval_packed_generic_transition`. -/
def eval_ext_circuit_transition {R : Type} [CommRing R] (lv nv : KRow R)
    (pub : Fin 50 → R) : List R :=
  round_flags_transition lv nv
  ++ ((List.finRange 5).flatMap fun x => (List.finRange 5).flatMap fun y =>
      [output_match_constraint_circuit lv pub x y 0,
        output_match_constraint_circuit lv pub x y 1])
  ++ ((List.finRange 5).flatMap fun x => (List.finRange 5).flatMap fun y =>
      [chaining_constraint_circuit lv nv x y 0, chaining_constraint_circuit lv nv x y 1])

/-- The declared maximum constraint degree (`constraint_degree` in the
source). -/
def constraint_degree : Nat := 3

/-- The all-ones 64-bit mask used for bitwise complement on 64-bit words. -/
def M64 : Nat := 2 ^ 64 - 1

/-- Left rotation of a 64-bit word. -/
def rotl64 (v k : Nat) : Nat := ((v <<< k) ||| (v >>> (64 - k))) % 2 ^ 64

/-- Reference permutation, theta column parity: the xor of the five lanes of
column `x`. -/
def refC (A : Fin 5 → Fin 5 → Nat) (x : Fin 5) : Nat :=
  A x 0 ^^^ A x 1 ^^^ A x 2 ^^^ A x 3 ^^^ A x 4

/-- Reference permutation, theta diffusion term:
`D[x] = C[x - 1] xor rotl(C[x + 1], 1)`. -/
def refD (A : Fin 5 → Fin 5 → Nat) (x : Fin 5) : Nat :=
  refC A (x + 4) ^^^ rotl64 (refC A (x + 1)) 1

/-- Reference permutation, theta output state: `A[x, y] xor D[x]`. -/
def refThetaState (A : Fin 5 → Fin 5 → Nat) (x y : Fin 5) : Nat :=
  A x y ^^^ refD A x

/-- Reference permutation, rho/pi output: `B[x, y]` is the lane
`T[(x + 3y) % 5, x]` of the theta output rotated left by the fixed offset. -/
def refB (T : Fin 5 → Fin 5 → Nat) (x y : Fin 5) : Nat :=
  rotl64 (T (x + 3 * y) x) (rotOffset (x + 3 * y) x)

/-- Reference permutation, chi output state:
`B[x, y] xor ((not B[x + 1, y]) and B[x + 2, y])`. -/
def refChiState (T : Fin 5 → Fin 5 → Nat) (x y : Fin 5) : Nat :=
  refB T x y ^^^ ((refB T (x + 1) y ^^^ M64) &&& refB T (x + 2) y)

/-- Reference permutation, iota: xor the round constant into lane (0,0). -/
def refIotaState (S : Fin 5 → Fin 5 → Nat) (r : Nat) (x y : Fin 5) : Nat :=
  if x = 0 ∧ y = 0 then S 0 0 ^^^ rc_value r else S x y

/-- A 5 by 5 lane state read back from a 25-entry list in `y * 5 + x` order. -/
def tabulate25 (l : List Nat) (x y : Fin 5) : Nat := l.getD (y.val * 5 + x.val) 0

/-- A 5 by 5 lane state flattened to a 25-entry list in `y * 5 + x` order. -/
def list25 (A : Fin 5 → Fin 5 → Nat) : List Nat :=
  (List.finRange 25).map fun i =>
    A ⟨i.val % 5, Nat.mod_lt _ (by omega)⟩ ⟨i.val / 5, by omega⟩

/-- One round of the reference Keccak-f permutation: theta, rho/pi, chi,
iota. -/
def refRound (A : Fin 5 → Fin 5 → Nat) (r : Nat) : Fin 5 → Fin 5 → Nat :=
  refIotaState (refChiState (refThetaState A)) r

/-- One round of the reference permutation on a flattened 25-entry state
(so that iterated evaluation on concrete inputs materializes each round). -/
def refRoundList (l : List Nat) (r : Nat) : List Nat :=
  list25 (refRound (tabulate25 l) r)

/-- The flattened state of the reference permutation after a number of
rounds. -/
def keccakRoundsList (l : List Nat) : Nat → List Nat
  | 0 => l
  | r + 1 => refRoundList (keccakRoundsList l r) r

/-- The state of the reference permutation after a number of rounds. -/
def keccakRounds (A : Fin 5 → Fin 5 → Nat) (n : Nat) : Fin 5 → Fin 5 → Nat :=
  tabulate25 (keccakRoundsList (list25 A) n)

/-- The reference (non-arithmetized) Keccak-f[1600] permutation: 24 rounds. -/
def keccakF (A : Fin 5 → Fin 5 → Nat) : Fin 5 → Fin 5 → Nat :=
  keccakRounds A 24

/-- A 64-bit machine word, as the type of the lanes of an input instance. -/
abbrev U64 := Fin (2 ^ 64)

/-- The lane values of a 25-word input instance. -/
def toLanes (input : Fin 25 → U64) (i : Fin 25) : Nat := (input i).val

/-- The 5 by 5 lane state of a 25-word array, `A[x, y] = arr[y * 5 + x]`. -/
def lanesOfInput (input : Fin 25 → Nat) (x y : Fin 5) : Nat :=
  input ⟨y.val * 5 + x.val, by omega⟩

/-- A 5 by 5 lane state flattened back to a 25-word array in `y * 5 + x`
order (the layout of instance inputs and outputs). -/
def stateToArr (A : Fin 5 → Fin 5 → Nat) (i : Fin 25) : Nat :=
  A ⟨i.val % 5, Nat.mod_lt _ (by omega)⟩ ⟨i.val / 5, by omega⟩

/-- The 64-bit lane value reconstructed from the `A'''` lo/hi limb registers
of a row. -/
def reconLane (v : KRow Int) (x y : Fin 5) : Nat :=
  (v.reg_a_prime_prime_prime x y 0).toNat
    + 2 ^ 32 * (v.reg_a_prime_prime_prime x y 1).toNat

/-- The lo/hi limb pair of each lane of a 5 by 5 state, as stored in trace
rows (limb 0 the low 32 bits, limb 1 the high 32 bits). -/
def limbsOf (A : Fin 5 → Fin 5 → Nat) (x y : Fin 5) (l : Fin 2) : Int :=
  if l = 0 then Int.ofNat (A x y % 2 ^ 32) else Int.ofNat (A x y / 2 ^ 32)

/-- Every lane of a state fits in 64 bits. -/
def Bounded64 (A : Fin 5 → Fin 5 → Nat) : Prop := ∀ x y, A x y < 2 ^ 64

/-- The all-zero row, used as the default element for positional lookups. -/
def zeroRow : KRow Int where
  a := fun _ _ _ => 0
  c := fun _ _ => 0
  cPrime := fun _ _ => 0
  aPrime := fun _ _ _ => 0
  aPrimePrime := fun _ _ _ => 0
  aPrimePrime00Bit := fun _ => 0
  aPrimePrimePrime00 := fun _ => 0
  step := fun _ => 0
  filter := 0

/-- A concrete input instance: the all-zero state. -/
def cexZero : Fin 25 → U64 := fun _ => 0

/-- A concrete input instance: word 0 is 1, every other word is 0. -/
def cexE : Fin 25 → U64 := fun i => if i.val = 0 then 1 else 0

/-- A concrete row assignment: the all-zero row with the `A'''[0, 0]` limb
registers set to 1. -/
def cexRow : KRow Int := { zeroRow with aPrimePrimePrime00 := fun _ => 1 }

/-- A register (column) of a trace row, as a formal variable index for the
polynomial view of the constraints. -/
inductive KCol where
  | va : Fin 5 → Fin 5 → Fin 2 → KCol
  | vc : Fin 5 → Fin 64 → KCol
  | vcPrime : Fin 5 → Fin 64 → KCol
  | vaPrime : Fin 5 → Fin 5 → Fin 64 → KCol
  | vaPrimePrime : Fin 5 → Fin 5 → Fin 2 → KCol
  | vbit : Fin 64 → KCol
  | vappp : Fin 2 → KCol
  | vstep : Fin 24 → KCol
  | vfilter : KCol
deriving DecidableEq

/-- A variable of the constraint polynomials: a current-row register, a
next-row register or a public input. -/
inductive KVar where
  | loc : KCol → KVar
  | nxt : KCol → KVar
  | pubv : Fin 50 → KVar
deriving DecidableEq

/-- The polynomial ring the constraints are expanded in: multivariate
polynomials over the row and public-input variables, with integer
coefficients. -/
abbrev KPoly := MvPolynomial KVar Int

/-- A row of formal variables, tagged by a placement (current or next row). -/
noncomputable def varOf (f : KCol → KVar) : KRow KPoly where
  a := fun x y l => MvPolynomial.X (f (KCol.va x y l))
  c := fun x z => MvPolynomial.X (f (KCol.vc x z))
  cPrime := fun x z => MvPolynomial.X (f (KCol.vcPrime x z))
  aPrime := fun x y z => MvPolynomial.X (f (KCol.vaPrime x y z))
  aPrimePrime := fun x y l => MvPolynomial.X (f (KCol.vaPrimePrime x y l))
  aPrimePrime00Bit := fun z => MvPolynomial.X (f (KCol.vbit z))
  aPrimePrimePrime00 := fun l => MvPolynomial.X (f (KCol.vappp l))
  step := fun r => MvPolynomial.X (f (KCol.vstep r))
  filter := MvPolynomial.X (f KCol.vfilter)

/-- The current row as a row of formal variables. -/
noncomputable def locRow : KRow KPoly := varOf KVar.loc

/-- The next row as a row of formal variables. -/
noncomputable def nxtRow : KRow KPoly := varOf KVar.nxt

/-- The public inputs as formal variables. -/
noncomputable def pubPoly (i : Fin 50) : KPoly := MvPolynomial.X (KVar.pubv i)

end KeccakStark

namespace KeccakStark

/-! Lemmas about the boolean encoding, the logic gadgets and the
bit-reassembly fold. -/

theorem b2i_nonneg (b : Bool) : 0 ≤ b2i b := by cases b <;> simp [b2i]

theorem xor_gen_b2i (p q : Bool) : xor_gen (b2i p) (b2i q) = b2i (p ^^ q) := by
  cases p <;> cases q <;> decide

theorem xor3_gen_b2i (p q r : Bool) :
    xor3_gen (b2i p) (b2i q) (b2i r) = b2i (p ^^ (q ^^ r)) := by
  cases p <;> cases q <;> cases r <;> decide

theorem andn_gen_b2i (p q : Bool) : andn_gen (b2i p) (b2i q) = b2i (!p && q) := by
  cases p <;> cases q <;> decide

theorem xorNative_b2i2 (p q : Bool) :
    xorNative [b2i p, b2i q] = b2i (p ^^ q) := by
  cases p <;> cases q <;> decide

theorem xorNative_b2i3 (p q r : Bool) :
    xorNative [b2i p, b2i q, b2i r] = b2i ((p ^^ q) ^^ r) := by
  cases p <;> cases q <;> cases r <;> decide

theorem xorNative_b2i5 (p q r s t : Bool) :
    xorNative [b2i p, b2i q, b2i r, b2i s, b2i t]
      = b2i ((((p ^^ q) ^^ r) ^^ s) ^^ t) := by
  cases p <;> cases q <;> cases r <;> cases s <;> cases t <;> decide

theorem andnNative_b2i (p q : Bool) :
    andnNative (b2i p) (b2i q) = b2i (!p && q) := by
  cases p <;> cases q <;> decide

theorem foldl_reassemble {R : Type} [CommRing R] (g : Nat → R) :
    ∀ (n s : Nat), ((List.range' s n).reverse).foldl (fun acc z => 2 * acc + g z) 0
      = ∑ i ∈ Finset.range n, g (s + i) * 2 ^ i := by
  intro n
  induction n with
  | zero => intro s; simp
  | succ n ih =>
    intro s
    rw [List.range'_succ, List.reverse_cons, List.foldl_append, ih (s + 1),
      Finset.sum_range_succ']
    simp only [List.foldl_cons, List.foldl_nil, Finset.mul_sum]
    congr 1
    · apply Finset.sum_congr rfl
      intro i _
      have h2 : s + 1 + i = s + (i + 1) := by omega
      rw [h2]
      ring
    · simp

theorem reassemble_eq_sum {R : Type} [CommRing R] (g : Nat → R) (s : Nat) :
    reassemble g s = ∑ i ∈ Finset.range 32, g (s + i) * 2 ^ i :=
  foldl_reassemble g 32 s

theorem reduce_with_powers_map_two {R : Type} [CommRing R] (g : Nat → R) (s : Nat) :
    reduce_with_powers_ext_circuit ((List.range' s 32).map g) 2 = reassemble g s := by
  unfold reduce_with_powers_ext_circuit reassemble
  rw [← List.map_reverse, List.foldl_map]

theorem sum_b2i_testBit (w : Nat) (n : Nat) :
    ∑ i ∈ Finset.range n, b2i (w.testBit i) * 2 ^ i = ((w % 2 ^ n : Nat) : Int) := by
  induction n with
  | zero => simp
  | succ n ih =>
    rw [Finset.sum_range_succ, ih, Nat.mod_pow_succ]
    have hb : b2i (w.testBit n) = ((w / 2 ^ n % 2 : Nat) : Int) := by
      rw [Nat.testBit_to_div_mod]
      rcases Nat.mod_two_eq_zero_or_one (w / 2 ^ n) with h | h <;> simp [h, b2i]
    rw [hb]
    push_cast
    ring

theorem reassemble_testBit (w s : Nat) :
    reassemble (fun z => b2i (w.testBit z)) s = (((w >>> s) % 2 ^ 32 : Nat) : Int) := by
  rw [reassemble_eq_sum]
  have h : ∀ i : Nat, b2i (w.testBit (s + i)) = b2i ((w >>> s).testBit i) := by
    intro i; rw [Nat.testBit_shiftRight]
  simp only [h]
  exact sum_b2i_testBit (w >>> s) 32

/-! Lemmas relating stored limbs, bit extraction and the rotation helper to
`Nat.testBit`. -/

theorem limb_bit_eq_b2i (v : Int) (k : Nat) :
    limb_bit v k = b2i ((v.toNat % 2 ^ 32).testBit k) := by
  unfold limb_bit b2i
  rw [Nat.testBit_to_div_mod, Nat.shiftRight_eq_div_pow, Nat.and_one_is_mod]
  rcases Nat.mod_two_eq_zero_or_one (v.toNat % 2 ^ 32 / 2 ^ k) with h | h <;> simp [h]

theorem limbsOf_zero_toNat (A : Fin 5 → Fin 5 → Nat) (x y : Fin 5) :
    (limbsOf A x y 0).toNat = A x y % 2 ^ 32 := by
  simp [limbsOf]
  omega

theorem limbsOf_one_toNat (A : Fin 5 → Fin 5 → Nat) (x y : Fin 5) :
    (limbsOf A x y 1).toNat = A x y / 2 ^ 32 := by
  simp [limbsOf]
  omega

theorem div_two_pow_32_lt {a : Nat} (h : a < 2 ^ 64) : a / 2 ^ 32 < 2 ^ 32 :=
  Nat.div_lt_of_lt_mul (by norm_num at h ⊢; omega)

theorem limb_bit_lane (A : Fin 5 → Fin 5 → Nat) (x y : Fin 5)
    (hA : A x y < 2 ^ 64) (z : Fin 64) :
    limb_bit (limbsOf A x y (limbIdx z)) (z.val % 32) = b2i ((A x y).testBit z.val) := by
  rw [limb_bit_eq_b2i]
  congr 1
  by_cases hz : z.val < 32
  · have h0 : limbIdx z = 0 := by
      apply Fin.ext; simp [limbIdx]; omega
    rw [h0, limbsOf_zero_toNat]
    have hm : z.val % 32 = z.val := Nat.mod_eq_of_lt hz
    rw [hm, Nat.testBit_mod_two_pow, Nat.testBit_mod_two_pow]
    simp [hz]
  · have h1 : limbIdx z = 1 := by
      apply Fin.ext; simp [limbIdx]; omega
    rw [h1, limbsOf_one_toNat]
    have hlt : A x y / 2 ^ 32 < 2 ^ 32 := div_two_pow_32_lt hA
    rw [Nat.mod_eq_of_lt hlt]
    have hm : z.val % 32 = z.val - 32 := by omega
    rw [hm, ← Nat.shiftRight_eq_div_pow, Nat.testBit_shiftRight]
    congr 1
    omega

theorem tabulate25_list25 (A : Fin 5 → Fin 5 → Nat) (x y : Fin 5) :
    tabulate25 (list25 A) x y = A x y := by
  unfold tabulate25 list25
  rw [List.getD_eq_getElem _ _ (by simp; omega)]
  rw [List.getElem_map]
  congr 1 <;> apply Fin.ext <;> simp [List.getElem_finRange] <;> omega

theorem rotl64_lt (v k : Nat) : rotl64 v k < 2 ^ 64 :=
  Nat.mod_lt _ (by norm_num)

theorem testBit_rotl64 (v k : Nat) (hv : v < 2 ^ 64) (hk : k ≤ 63)
    (z : Nat) (hz : z < 64) :
    (rotl64 v k).testBit z = v.testBit ((z + 64 - k) % 64) := by
  unfold rotl64
  rw [Nat.testBit_mod_two_pow, Nat.testBit_or, Nat.testBit_shiftLeft,
    Nat.testBit_shiftRight]
  by_cases h : k ≤ z
  · have h1 : (z + 64 - k) % 64 = z - k := by omega
    have h2 : v.testBit (64 - k + z) = false :=
      Nat.testBit_lt_two_pow
        (lt_of_lt_of_le hv (Nat.pow_le_pow_right (by norm_num) (by omega)))
    rw [h1, h2]
    simp [h, hz]
  · have h1 : (z + 64 - k) % 64 = 64 - k + z := by omega
    rw [h1]
    simp [h, hz]

theorem getD_lt_of_forall {l : List Nat} {b d : Nat}
    (hl : ∀ x ∈ l, x < b) (hd : d < b) (n : Nat) : l.getD n d < b := by
  by_cases hn : n < l.length
  · rw [List.getD_eq_getElem _ _ hn]
    exact hl _ (List.getElem_mem hn)
  · rw [List.getD_eq_default _ _ (by omega)]
    exact hd

theorem rc_value_lt (r : Nat) : rc_value r < 2 ^ 64 := by
  unfold rc_value
  exact getD_lt_of_forall (by decide) (by norm_num) r

theorem rotOffset_le (x y : Fin 5) : rotOffset x y ≤ 63 := by
  revert x y; decide

/-! Boundedness of the reference permutation stages. -/

theorem refC_lt {A : Fin 5 → Fin 5 → Nat} (hA : Bounded64 A) (x : Fin 5) :
    refC A x < 2 ^ 64 := by
  unfold refC
  exact Nat.xor_lt_two_pow (Nat.xor_lt_two_pow (Nat.xor_lt_two_pow
    (Nat.xor_lt_two_pow (hA x 0) (hA x 1)) (hA x 2)) (hA x 3)) (hA x 4)

theorem refD_lt {A : Fin 5 → Fin 5 → Nat} (hA : Bounded64 A) (x : Fin 5) :
    refD A x < 2 ^ 64 :=
  Nat.xor_lt_two_pow (refC_lt hA _) (rotl64_lt _ _)

theorem refThetaState_lt {A : Fin 5 → Fin 5 → Nat} (hA : Bounded64 A) :
    Bounded64 (refThetaState A) := fun x y =>
  Nat.xor_lt_two_pow (hA x y) (refD_lt hA x)

theorem refB_lt (T : Fin 5 → Fin 5 → Nat) (x y : Fin 5) : refB T x y < 2 ^ 64 :=
  rotl64_lt _ _

theorem refChiState_lt (T : Fin 5 → Fin 5 → Nat) : Bounded64 (refChiState T) :=
  fun x y =>
  Nat.xor_lt_two_pow (refB_lt T x y)
    (lt_of_le_of_lt Nat.and_le_right (refB_lt T _ y))

theorem refIotaState_lt {S : Fin 5 → Fin 5 → Nat} (hS : Bounded64 S) (r : Nat) :
    Bounded64 (refIotaState S r) := by
  intro x y
  unfold refIotaState
  by_cases h : x = 0 ∧ y = 0
  · simp [h]
    exact Nat.xor_lt_two_pow (hS 0 0) (rc_value_lt r)
  · simp [h]
    exact hS x y

theorem refRound_lt {A : Fin 5 → Fin 5 → Nat} (hA : Bounded64 A) (r : Nat) :
    Bounded64 (refRound A r) :=
  refIotaState_lt (refChiState_lt _) r

theorem keccakRounds_zero (A : Fin 5 → Fin 5 → Nat) (x y : Fin 5) :
    keccakRounds A 0 x y = A x y :=
  tabulate25_list25 A x y

theorem keccakRounds_succ (A : Fin 5 → Fin 5 → Nat) (r : Nat) (x y : Fin 5) :
    keccakRounds A (r + 1) x y = refRound (keccakRounds A r) r x y := by
  unfold keccakRounds
  show tabulate25 (refRoundList (keccakRoundsList (list25 A) r) r) x y = _
  unfold refRoundList
  rw [tabulate25_list25]

theorem keccakRounds_bounded {A : Fin 5 → Fin 5 → Nat} (hA : Bounded64 A) :
    ∀ n, Bounded64 (keccakRounds A n) := by
  intro n
  induction n with
  | zero => intro x y; rw [keccakRounds_zero]; exact hA x y
  | succ r ih =>
    intro x y
    rw [keccakRounds_succ]
    exact refRound_lt ih r x y

/-! Characterization of the generated row registers in terms of the bits of
the reference permutation stages. -/

theorem sum_b2i_testBit_shift (w s : Nat) :
    ∑ i ∈ Finset.range 32, b2i (w.testBit (s + i)) * 2 ^ i
      = (((w >>> s) % 2 ^ 32 : Nat) : Int) := by
  have h : ∀ i : Nat, b2i (w.testBit (s + i)) = b2i ((w >>> s).testBit i) := by
    intro i; rw [Nat.testBit_shiftRight]
  simp only [h]
  exact sum_b2i_testBit (w >>> s) 32

theorem gen_c_eq (A : Fin 5 → Fin 5 → Nat) (hA : Bounded64 A)
    (x : Fin 5) (z : Fin 64) :
    gen_c (limbsOf A) x z = b2i ((refC A x).testBit z.val) := by
  unfold gen_c
  simp only [List.map_cons, List.map_nil]
  rw [limb_bit_lane A x 0 (hA x 0) z, limb_bit_lane A x 1 (hA x 1) z,
    limb_bit_lane A x 2 (hA x 2) z, limb_bit_lane A x 3 (hA x 3) z,
    limb_bit_lane A x 4 (hA x 4) z, xorNative_b2i5]
  congr 1
  unfold refC
  simp [Nat.testBit_xor]

theorem gen_c_prime_eq (A : Fin 5 → Fin 5 → Nat) (hA : Bounded64 A)
    (x : Fin 5) (z : Fin 64) :
    gen_c_prime (limbsOf A) x z = b2i ((refC A x ^^^ refD A x).testBit z.val) := by
  unfold gen_c_prime
  rw [gen_c_eq A hA x z, gen_c_eq A hA (x + 4) z, gen_c_eq A hA (x + 1) (z + 63),
    xorNative_b2i3]
  have hrot : (refC A (x + 1)).testBit ((z + (63 : Fin 64)).val)
      = (rotl64 (refC A (x + 1)) 1).testBit z.val := by
    rw [testBit_rotl64 _ 1 (refC_lt hA _) (by omega) z.val z.isLt]
    congr 1
  rw [hrot]
  congr 1
  rw [Nat.testBit_xor]
  unfold refD
  rw [Nat.testBit_xor]
  exact Bool.xor_assoc _ _ _

theorem gen_a_prime_eq (A : Fin 5 → Fin 5 → Nat) (hA : Bounded64 A)
    (x y : Fin 5) (z : Fin 64) :
    gen_a_prime (limbsOf A) x y z = b2i ((refThetaState A x y).testBit z.val) := by
  unfold gen_a_prime
  rw [limb_bit_lane A x y (hA x y) z, gen_c_eq A hA x z, gen_c_prime_eq A hA x z,
    xorNative_b2i3]
  congr 1
  unfold refThetaState
  rw [Nat.testBit_xor, Nat.testBit_xor]
  generalize (A x y).testBit z.val = a
  generalize (refC A x).testBit z.val = c
  generalize (refD A x).testBit z.val = d
  revert a c d; decide

theorem gen_b_eq (A : Fin 5 → Fin 5 → Nat) (hA : Bounded64 A)
    (x y : Fin 5) (z : Fin 64) :
    gen_b (limbsOf A) x y z = b2i ((refB (refThetaState A) x y).testBit z.val) := by
  unfold gen_b bIdx
  rw [gen_a_prime_eq A hA]
  unfold refB
  rw [testBit_rotl64 _ _ (refThetaState_lt hA _ _) (rotOffset_le _ _) z.val z.isLt]

theorem gen_chi_bit_eq (A : Fin 5 → Fin 5 → Nat) (hA : Bounded64 A)
    (x y : Fin 5) (z : Fin 64) :
    gen_chi_bit (limbsOf A) x y z
      = b2i ((refChiState (refThetaState A) x y).testBit z.val) := by
  unfold gen_chi_bit
  rw [gen_b_eq A hA x y z, gen_b_eq A hA (x + 1) y z, gen_b_eq A hA (x + 2) y z,
    andnNative_b2i, xorNative_b2i2]
  congr 1
  unfold refChiState M64
  rw [Nat.testBit_xor, Nat.testBit_and, Nat.testBit_xor,
    Nat.testBit_two_pow_sub_one]
  simp [z.isLt]

theorem gen_a_prime_prime_eq (A : Fin 5 → Fin 5 → Nat) (hA : Bounded64 A)
    (x y : Fin 5) (l : Fin 2) :
    gen_a_prime_prime (limbsOf A) x y l
      = limbsOf (refChiState (refThetaState A)) x y l := by
  have hlt : refChiState (refThetaState A) x y < 2 ^ 64 := refChiState_lt _ x y
  have hkey : ∀ s : Nat, s ≤ 32 →
      reassemble (fun z =>
          gen_chi_bit (limbsOf A) x y ⟨z % 64, Nat.mod_lt _ (by omega)⟩) s
        = (((refChiState (refThetaState A) x y >>> s) % 2 ^ 32 : Nat) : Int) := by
    intro s hs
    rw [reassemble_eq_sum]
    rw [Finset.sum_congr rfl (fun i hi => ?_)]
    · exact sum_b2i_testBit_shift (refChiState (refThetaState A) x y) s
    · have hi32 : i < 32 := Finset.mem_range.mp hi
      have hv : (s + i) % 64 = s + i := Nat.mod_eq_of_lt (by omega)
      rw [gen_chi_bit_eq A hA]
      show b2i ((refChiState (refThetaState A) x y).testBit ((s + i) % 64)) * 2 ^ i = _
      rw [hv]
  by_cases hl0 : l = 0
  · subst hl0
    unfold gen_a_prime_prime
    rw [show (32 * (0 : Fin 2).val) = 0 from rfl, hkey 0 (by omega)]
    unfold limbsOf
    simp [Nat.shiftRight_zero]
  · have hv1 : l.val ≠ 0 := fun h => hl0 (Fin.ext h)
    have hl1 : l = 1 := Fin.ext (by omega)
    subst hl1
    unfold gen_a_prime_prime
    rw [show (32 * (1 : Fin 2).val) = 32 from rfl, hkey 32 (by omega)]
    unfold limbsOf
    rw [Nat.shiftRight_eq_div_pow, Nat.mod_eq_of_lt (div_two_pow_32_lt hlt)]
    simp

theorem gen_val_eq (A : Fin 5 → Fin 5 → Nat) (hA : Bounded64 A) :
    gen_val (limbsOf A) = refChiState (refThetaState A) 0 0 := by
  unfold gen_val
  rw [gen_a_prime_prime_eq A hA 0 0 0, gen_a_prime_prime_eq A hA 0 0 1,
    limbsOf_zero_toNat, limbsOf_one_toNat]
  apply Nat.eq_of_testBit_eq
  intro i
  rw [Nat.testBit_or, Nat.testBit_mod_two_pow, Nat.testBit_shiftLeft]
  by_cases h : i < 32
  · have h2 : ¬(i ≥ 32) := by omega
    simp [h, h2]
  · rw [← Nat.shiftRight_eq_div_pow, Nat.testBit_shiftRight]
    have h32 : 32 + (i - 32) = i := by omega
    rw [h32]
    have hge : i ≥ 32 := by omega
    simp [h, hge]

theorem gen_bit00_eq (A : Fin 5 → Fin 5 → Nat) (hA : Bounded64 A) (i : Fin 64) :
    gen_bit00 (limbsOf A) i
      = b2i ((refChiState (refThetaState A) 0 0).testBit i.val) := by
  unfold gen_bit00
  rw [gen_val_eq A hA, Nat.and_one_is_mod, Nat.shiftRight_eq_div_pow]
  rw [Nat.testBit_to_div_mod]
  rcases Nat.mod_two_eq_zero_or_one (refChiState (refThetaState A) 0 0 / 2 ^ i.val)
    with h | h <;> simp [h, b2i]

theorem and_two_pow_sub_one (a n : Nat) : a &&& (2 ^ n - 1) = a % 2 ^ n := by
  apply Nat.eq_of_testBit_eq
  intro i
  rw [Nat.testBit_and, Nat.testBit_two_pow_sub_one, Nat.testBit_mod_two_pow,
    Bool.and_comm]

theorem xor_mod_two_pow (a b n : Nat) :
    (a ^^^ b) % 2 ^ n = (a % 2 ^ n) ^^^ (b % 2 ^ n) := by
  apply Nat.eq_of_testBit_eq
  intro i
  rw [Nat.testBit_mod_two_pow, Nat.testBit_xor, Nat.testBit_xor,
    Nat.testBit_mod_two_pow, Nat.testBit_mod_two_pow]
  by_cases h : i < n <;> simp [h]

theorem shiftRight_xor (a b n : Nat) :
    (a ^^^ b) >>> n = (a >>> n) ^^^ (b >>> n) := by
  apply Nat.eq_of_testBit_eq
  intro i
  simp [Nat.testBit_shiftRight, Nat.testBit_xor]

theorem gen_appp00_eq (A : Fin 5 → Fin 5 → Nat) (hA : Bounded64 A)
    (r : Nat) (l : Fin 2) :
    gen_appp00 (limbsOf A) r l
      = limbsOf (refIotaState (refChiState (refThetaState A)) r) 0 0 l := by
  have hw : refChiState (refThetaState A) 0 0 < 2 ^ 64 := refChiState_lt _ 0 0
  unfold gen_appp00
  by_cases hl0 : l = 0
  · subst hl0
    rw [if_pos rfl, gen_a_prime_prime_eq A hA 0 0 0, limbsOf_zero_toNat]
    unfold limbsOf refIotaState
    rw [if_pos rfl, if_pos ⟨rfl, rfl⟩]
    congr 1
    rw [show ((1 <<< 32) - 1 : Nat) = 2 ^ 32 - 1 from rfl, and_two_pow_sub_one,
      xor_mod_two_pow]
  · have hv1 : l.val ≠ 0 := fun h => hl0 (Fin.ext h)
    have hl1 : l = 1 := Fin.ext (by omega)
    subst hl1
    rw [if_neg hl0, gen_a_prime_prime_eq A hA 0 0 1, limbsOf_one_toNat]
    unfold limbsOf refIotaState
    rw [if_neg hl0, if_pos ⟨rfl, rfl⟩]
    congr 1
    rw [← Nat.shiftRight_eq_div_pow, ← Nat.shiftRight_eq_div_pow, shiftRight_xor]

theorem row_appp_eq (A : Fin 5 → Fin 5 → Nat) (hA : Bounded64 A)
    (r : Nat) (x y : Fin 5) (l : Fin 2) :
    (generate_trace_row_for_round (limbsOf A) r).reg_a_prime_prime_prime x y l
      = limbsOf (refRound A r) x y l := by
  unfold KRow.reg_a_prime_prime_prime generate_trace_row_for_round
  by_cases h : x = 0 ∧ y = 0
  · obtain ⟨hx, hy⟩ := h
    subst hx; subst hy
    rw [if_pos ⟨rfl, rfl⟩]
    exact gen_appp00_eq A hA r l
  · rw [if_neg h]
    simp only []
    rw [gen_a_prime_prime_eq A hA x y l]
    unfold limbsOf refRound refIotaState
    rw [if_neg h]

theorem input_limbs_eq (input : Fin 25 → Nat) :
    input_limbs input = limbsOf (lanesOfInput input) := by
  funext x y l
  unfold input_limbs limbsOf lanesOfInput
  by_cases h : l = 0
  · rw [if_pos h, if_pos h]
    congr 1
    rw [show (0xFFFFFFFF : Nat) = 2 ^ 32 - 1 by norm_num, and_two_pow_sub_one]
  · rw [if_neg h, if_neg h]
    congr 1
    rw [Nat.shiftRight_eq_div_pow]

theorem perm_round_row_eq (input : Fin 25 → Nat)
    (hb : Bounded64 (lanesOfInput input)) :
    ∀ r, perm_round_row input r
      = generate_trace_row_for_round
          (limbsOf (keccakRounds (lanesOfInput input) r)) r := by
  intro r
  induction r with
  | zero =>
    show generate_trace_row_for_round (input_limbs input) 0 = _
    rw [input_limbs_eq]
    congr 1
    funext x y l
    unfold limbsOf
    rw [keccakRounds_zero]
  | succ r ih =>
    show generate_trace_row_for_round
        (copy_output_to_input (perm_round_row input r)) (r + 1) = _
    rw [ih]
    congr 1
    funext x y l
    unfold copy_output_to_input
    rw [row_appp_eq _ (keccakRounds_bounded hb r) r x y l]
    unfold limbsOf
    rw [keccakRounds_succ]

theorem perm_round_row_appp (input : Fin 25 → Nat)
    (hb : Bounded64 (lanesOfInput input)) (r : Nat) (x y : Fin 5) (l : Fin 2) :
    (perm_round_row input r).reg_a_prime_prime_prime x y l
      = limbsOf (keccakRounds (lanesOfInput input) (r + 1)) x y l := by
  rw [perm_round_row_eq input hb r,
    row_appp_eq _ (keccakRounds_bounded hb r) r x y l]
  unfold limbsOf
  rw [keccakRounds_succ]

/-! Projections of a generated row. -/

theorem row_a (aIn : Fin 5 → Fin 5 → Fin 2 → Int) (r : Nat) :
    (generate_trace_row_for_round aIn r).a = aIn := rfl

theorem row_c (aIn : Fin 5 → Fin 5 → Fin 2 → Int) (r : Nat) :
    (generate_trace_row_for_round aIn r).c = gen_c aIn := rfl

theorem row_cPrime (aIn : Fin 5 → Fin 5 → Fin 2 → Int) (r : Nat) :
    (generate_trace_row_for_round aIn r).cPrime = gen_c_prime aIn := rfl

theorem row_aPrime (aIn : Fin 5 → Fin 5 → Fin 2 → Int) (r : Nat) :
    (generate_trace_row_for_round aIn r).aPrime = gen_a_prime aIn := rfl

theorem row_app (aIn : Fin 5 → Fin 5 → Fin 2 → Int) (r : Nat) :
    (generate_trace_row_for_round aIn r).aPrimePrime = gen_a_prime_prime aIn := rfl

theorem row_bit00 (aIn : Fin 5 → Fin 5 → Fin 2 → Int) (r : Nat) :
    (generate_trace_row_for_round aIn r).aPrimePrime00Bit = gen_bit00 aIn := rfl

theorem row_appp00 (aIn : Fin 5 → Fin 5 → Fin 2 → Int) (r : Nat) :
    (generate_trace_row_for_round aIn r).aPrimePrimePrime00 = gen_appp00 aIn r := rfl

theorem row_step (aIn : Fin 5 → Fin 5 → Fin 2 → Int) (r : Nat) :
    (generate_trace_row_for_round aIn r).step = fun s => if s.val = r then 1 else 0 := rfl

theorem row_filter (aIn : Fin 5 → Fin 5 → Fin 2 → Int) (r : Nat) :
    (generate_trace_row_for_round aIn r).filter = 0 := rfl

theorem row_reg_b (aIn : Fin 5 → Fin 5 → Fin 2 → Int) (r : Nat) (x y : Fin 5)
    (z : Fin 64) :
    (generate_trace_row_for_round aIn r).reg_b x y z = gen_b aIn x y z := rfl

/-! The limb selector restated through shifts, and vanishing of each per-row
constraint on a generated row. -/

theorem limbsOf_eq_shift (A : Fin 5 → Fin 5 → Nat) (x y : Fin 5)
    (h : A x y < 2 ^ 64) (l : Fin 2) :
    limbsOf A x y l = (((A x y >>> (32 * l.val)) % 2 ^ 32 : Nat) : Int) := by
  by_cases hl0 : l = 0
  · subst hl0
    unfold limbsOf
    rw [if_pos rfl]
    simp [Nat.shiftRight_zero]
  · have hv1 : l.val ≠ 0 := fun hh => hl0 (Fin.ext hh)
    have hl1 : l = 1 := Fin.ext (by omega)
    subst hl1
    unfold limbsOf
    rw [if_neg hl0, show (32 * ((1 : Fin 2)).val) = 32 from rfl,
      Nat.shiftRight_eq_div_pow, Nat.mod_eq_of_lt (div_two_pow_32_lt h)]
    rfl

theorem finz_val {s : Nat} (h : s < 64) : (finz s).val = s := by
  unfold finz
  simp
  omega

theorem c_prime_constraint_gen (A : Fin 5 → Fin 5 → Nat) (hA : Bounded64 A)
    (r : Nat) (x : Fin 5) (z : Fin 64) :
    c_prime_constraint (generate_trace_row_for_round (limbsOf A) r) x z = 0 := by
  unfold c_prime_constraint
  rw [row_c, row_cPrime]
  unfold gen_c_prime
  rw [gen_c_eq A hA x z, gen_c_eq A hA (x + 4) z, gen_c_eq A hA (x + 1) (z + 63),
    xorNative_b2i3, xor3_gen_b2i, sub_eq_zero]
  congr 1
  exact Bool.xor_assoc _ _ _

theorem a_limb_constraint_gen (A : Fin 5 → Fin 5 → Nat) (hA : Bounded64 A)
    (r : Nat) (x y : Fin 5) (l : Fin 2) :
    a_limb_constraint (generate_trace_row_for_round (limbsOf A) r) x y l = 0 := by
  unfold a_limb_constraint
  rw [row_a, row_c, row_cPrime, row_aPrime, sub_eq_zero]
  have hkey : reassemble (fun z => xor3_gen (gen_a_prime (limbsOf A) x y (finz z))
      (gen_c (limbsOf A) x (finz z)) (gen_c_prime (limbsOf A) x (finz z)))
      (32 * l.val)
      = (((A x y >>> (32 * l.val)) % 2 ^ 32 : Nat) : Int) := by
    rw [reassemble_eq_sum, Finset.sum_congr rfl (fun i hi => ?_)]
    · exact sum_b2i_testBit_shift (A x y) (32 * l.val)
    · have hi32 : i < 32 := Finset.mem_range.mp hi
      have hlt : 32 * l.val + i < 64 := by omega
      rw [gen_a_prime_eq A hA, gen_c_eq A hA, gen_c_prime_eq A hA, xor3_gen_b2i,
        finz_val hlt]
      have hb : ((refThetaState A x y).testBit (32 * l.val + i)
            ^^ ((refC A x).testBit (32 * l.val + i)
              ^^ (refC A x ^^^ refD A x).testBit (32 * l.val + i)))
          = (A x y).testBit (32 * l.val + i) := by
        unfold refThetaState
        rw [Nat.testBit_xor, Nat.testBit_xor]
        generalize (A x y).testBit (32 * l.val + i) = a
        generalize (refC A x).testBit (32 * l.val + i) = c
        generalize (refD A x).testBit (32 * l.val + i) = d
        revert a c d; decide
      rw [hb]
  rw [hkey, ← limbsOf_eq_shift A x y (hA x y) l]

theorem parity_diff_gen (A : Fin 5 → Fin 5 → Nat) (hA : Bounded64 A)
    (r : Nat) (x : Fin 5) (z : Fin 64) :
    parity_diff (generate_trace_row_for_round (limbsOf A) r) x z = 0
      ∨ parity_diff (generate_trace_row_for_round (limbsOf A) r) x z = 2
      ∨ parity_diff (generate_trace_row_for_round (limbsOf A) r) x z = 4 := by
  unfold parity_diff
  rw [row_aPrime, row_cPrime]
  simp only [List.map_cons, List.map_nil, List.sum_cons, List.sum_nil]
  rw [gen_a_prime_eq A hA x 0 z, gen_a_prime_eq A hA x 1 z,
    gen_a_prime_eq A hA x 2 z, gen_a_prime_eq A hA x 3 z,
    gen_a_prime_eq A hA x 4 z, gen_c_prime_eq A hA x z]
  have hθ : ∀ i : Fin 5, (refThetaState A x i).testBit z.val
      = ((A x i).testBit z.val ^^ (refD A x).testBit z.val) := fun i => by
    unfold refThetaState
    rw [Nat.testBit_xor]
  rw [hθ 0, hθ 1, hθ 2, hθ 3, hθ 4, Nat.testBit_xor]
  unfold refC
  simp only [Nat.testBit_xor]
  generalize (A x 0).testBit z.val = a0
  generalize (A x 1).testBit z.val = a1
  generalize (A x 2).testBit z.val = a2
  generalize (A x 3).testBit z.val = a3
  generalize (A x 4).testBit z.val = a4
  generalize (refD A x).testBit z.val = d
  revert a0 a1 a2 a3 a4 d; decide

theorem parity_constraint_gen (A : Fin 5 → Fin 5 → Nat) (hA : Bounded64 A)
    (r : Nat) (x : Fin 5) (z : Fin 64) :
    parity_constraint (generate_trace_row_for_round (limbsOf A) r) x z = 0 := by
  unfold parity_constraint
  rcases parity_diff_gen A hA r x z with h | h | h <;> rw [h] <;> ring

theorem chi_gen_bit_eq (A : Fin 5 → Fin 5 → Nat) (hA : Bounded64 A)
    (x y : Fin 5) (z : Fin 64) :
    xor_gen (gen_b (limbsOf A) x y z)
      (andn_gen (gen_b (limbsOf A) (x + 1) y z) (gen_b (limbsOf A) (x + 2) y z))
      = b2i ((refChiState (refThetaState A) x y).testBit z.val) := by
  rw [gen_b_eq A hA x y z, gen_b_eq A hA (x + 1) y z, gen_b_eq A hA (x + 2) y z,
    andn_gen_b2i, xor_gen_b2i]
  congr 1
  unfold refChiState M64
  rw [Nat.testBit_xor, Nat.testBit_and, Nat.testBit_xor,
    Nat.testBit_two_pow_sub_one]
  simp [z.isLt]

theorem a_prime_prime_constraint_gen (A : Fin 5 → Fin 5 → Nat) (hA : Bounded64 A)
    (r : Nat) (x y : Fin 5) (l : Fin 2) :
    a_prime_prime_constraint (generate_trace_row_for_round (limbsOf A) r) x y l
      = 0 := by
  unfold a_prime_prime_constraint
  rw [row_app, sub_eq_zero]
  have hkey : reassemble (fun z =>
      xor_gen ((generate_trace_row_for_round (limbsOf A) r).reg_b x y (finz z))
        (andn_gen
          ((generate_trace_row_for_round (limbsOf A) r).reg_b (x + 1) y (finz z))
          ((generate_trace_row_for_round (limbsOf A) r).reg_b (x + 2) y (finz z))))
      (32 * l.val)
      = (((refChiState (refThetaState A) x y >>> (32 * l.val)) % 2 ^ 32 : Nat)
          : Int) := by
    rw [reassemble_eq_sum, Finset.sum_congr rfl (fun i hi => ?_)]
    · exact sum_b2i_testBit_shift _ (32 * l.val)
    · have hi32 : i < 32 := Finset.mem_range.mp hi
      have hlt : 32 * l.val + i < 64 := by omega
      rw [row_reg_b, row_reg_b, row_reg_b, chi_gen_bit_eq A hA, finz_val hlt]
  rw [hkey, gen_a_prime_prime_eq A hA x y l,
    limbsOf_eq_shift _ x y (refChiState_lt _ x y) l]

theorem bit_decomp_constraint_gen (A : Fin 5 → Fin 5 → Nat) (hA : Bounded64 A)
    (r : Nat) (l : Fin 2) :
    bit_decomp_constraint (generate_trace_row_for_round (limbsOf A) r) l = 0 := by
  unfold bit_decomp_constraint
  rw [row_app, row_bit00, sub_eq_zero]
  have hkey : reassemble (fun z => gen_bit00 (limbsOf A) (finz z)) (32 * l.val)
      = (((refChiState (refThetaState A) 0 0 >>> (32 * l.val)) % 2 ^ 32 : Nat)
          : Int) := by
    rw [reassemble_eq_sum, Finset.sum_congr rfl (fun i hi => ?_)]
    · exact sum_b2i_testBit_shift _ (32 * l.val)
    · have hi32 : i < 32 := Finset.mem_range.mp hi
      have hlt : 32 * l.val + i < 64 := by omega
      rw [gen_bit00_eq A hA, finz_val hlt]
  rw [hkey, gen_a_prime_prime_eq A hA 0 0 l,
    limbsOf_eq_shift _ 0 0 (refChiState_lt _ 0 0) l]

theorem foldl_add_eq_sum {R : Type} [CommRing R] {α : Type} (f : α → R) :
    ∀ (l : List α) (init : R),
      l.foldl (fun acc x => acc + f x) init = init + (l.map f).sum := by
  intro l
  induction l with
  | nil => intro init; simp
  | cons a l ih =>
    intro init
    simp only [List.foldl_cons, List.map_cons, List.sum_cons, ih (init + f a)]
    ring

theorem onehot_list_sum {R : Type} [CommRing R] {n r : Nat} (hr : r < n)
    (c : Fin n → R) :
    (((List.finRange n).map fun s => (if s.val = r then (1 : R) else 0) * c s)).sum
      = c ⟨r, hr⟩ := by
  rw [← Fin.sum_univ_def]
  have h1 : ∀ s : Fin n, (if s.val = r then (1 : R) else 0) * c s
      = if s = ⟨r, hr⟩ then c s else 0 := by
    intro s
    by_cases h : s.val = r
    · rw [if_pos h, if_pos (Fin.ext h), one_mul]
    · rw [if_neg h, if_neg (fun hh => h (by rw [hh])), zero_mul]
  rw [Finset.sum_congr rfl fun s _ => h1 s,
    Finset.sum_ite_eq' Finset.univ (⟨r, hr⟩ : Fin n) c]
  simp

theorem rc_value_bit_cast (r i : Nat) :
    ((rc_value_bit r i : Nat) : Int) = b2i ((rc_value r).testBit i) := by
  unfold rc_value_bit
  rw [Nat.and_one_is_mod, Nat.shiftRight_eq_div_pow, Nat.testBit_to_div_mod]
  rcases Nat.mod_two_eq_zero_or_one (rc_value r / 2 ^ i) with h | h <;>
    simp [h, b2i]

theorem rc_bit_selected_gen (A : Fin 5 → Fin 5 → Nat) (r : Nat) (hr : r < 24)
    (i : Nat) :
    rc_bit_selected (generate_trace_row_for_round (limbsOf A) r) i
      = b2i ((rc_value r).testBit i) := by
  unfold rc_bit_selected
  simp only [row_step]
  rw [foldl_add_eq_sum, zero_add,
    onehot_list_sum hr (fun s : Fin 24 => ((rc_value_bit s.val i : Nat) : Int)),
    rc_value_bit_cast]

theorem iota_constraint_gen (A : Fin 5 → Fin 5 → Nat) (hA : Bounded64 A)
    (r : Nat) (hr : r < 24) (l : Fin 2) :
    iota_constraint (generate_trace_row_for_round (limbsOf A) r) l = 0 := by
  unfold iota_constraint
  rw [row_bit00, row_appp00, sub_eq_zero]
  have hkey : reassemble (fun z =>
      xor_gen (gen_bit00 (limbsOf A) (finz z))
        (rc_bit_selected (generate_trace_row_for_round (limbsOf A) r) z))
      (32 * l.val)
      = ((((refChiState (refThetaState A) 0 0 ^^^ rc_value r) >>> (32 * l.val))
          % 2 ^ 32 : Nat) : Int) := by
    rw [reassemble_eq_sum, Finset.sum_congr rfl (fun i hi => ?_)]
    · exact sum_b2i_testBit_shift _ (32 * l.val)
    · have hi32 : i < 32 := Finset.mem_range.mp hi
      have hlt : 32 * l.val + i < 64 := by omega
      rw [gen_bit00_eq A hA, rc_bit_selected_gen A r hr, finz_val hlt,
        xor_gen_b2i]
      rw [Nat.testBit_xor]
  rw [hkey, gen_appp00_eq A hA r l]
  have hbound : refIotaState (refChiState (refThetaState A)) r 0 0 < 2 ^ 64 :=
    refIotaState_lt (refChiState_lt _) r 0 0
  rw [limbsOf_eq_shift _ 0 0 hbound l]
  unfold refIotaState
  rw [if_pos ⟨rfl, rfl⟩]

theorem filter_boolean_constraint_gen (aIn : Fin 5 → Fin 5 → Fin 2 → Int)
    (r : Nat) :
    filter_boolean_constraint (generate_trace_row_for_round aIn r) = 0 := by
  unfold filter_boolean_constraint
  rw [row_filter]
  ring

theorem filter_final_step_constraint_gen (aIn : Fin 5 → Fin 5 → Fin 2 → Int)
    (r : Nat) :
    filter_final_step_constraint (generate_trace_row_for_round aIn r) = 0 := by
  unfold filter_final_step_constraint
  rw [row_filter]
  ring

theorem set_filter_fields (v : KRow Int) :
    (set_filter v).a = v.a ∧ (set_filter v).c = v.c ∧ (set_filter v).cPrime = v.cPrime
      ∧ (set_filter v).aPrime = v.aPrime
      ∧ (set_filter v).aPrimePrime = v.aPrimePrime
      ∧ (set_filter v).aPrimePrime00Bit = v.aPrimePrime00Bit
      ∧ (set_filter v).aPrimePrimePrime00 = v.aPrimePrimePrime00
      ∧ (set_filter v).step = v.step ∧ (set_filter v).filter = 1 :=
  ⟨rfl, rfl, rfl, rfl, rfl, rfl, rfl, rfl, rfl⟩

/-! Structure of the generated table: lengths, the padding loop and the
position-wise characterization of every row. -/

theorem pad_rows_length : pad_rows.length = 24 := by
  unfold pad_rows generate_trace_rows_for_perm
  simp [NUM_ROUNDS]

theorem perm_rows_length (input : Fin 25 → Nat) :
    (generate_trace_rows_for_perm input).length = 24 := by
  unfold generate_trace_rows_for_perm
  simp [NUM_ROUNDS]

theorem real_block_length (input : Fin 25 → Nat) :
    (real_block input).length = 24 := by
  unfold real_block
  rw [List.length_set, perm_rows_length]

theorem real_rows_length (inputs : List (Fin 25 → Nat)) :
    (inputs.flatMap real_block).length = 24 * inputs.length := by
  induction inputs with
  | nil => simp
  | cons a l ih =>
    rw [List.flatMap_cons, List.length_append, real_block_length, ih]
    simp
    ring

theorem pad_loop_eq_of_ge (rows : List (KRow Int)) (n : Nat)
    (h : n ≤ rows.length) : pad_loop rows n = rows := by
  unfold pad_loop
  rw [dif_neg (by omega)]

theorem pad_loop_eq_step (rows : List (KRow Int)) (n : Nat)
    (h : rows.length < n) : pad_loop rows n = pad_loop (rows ++ pad_rows) n := by
  conv_lhs => rw [pad_loop]
  rw [dif_pos h]

theorem pad_loop_length_ge :
    ∀ (m : Nat) (rows : List (KRow Int)) (n : Nat), n - rows.length ≤ m →
      n ≤ (pad_loop rows n).length := by
  intro m
  induction m with
  | zero =>
    intro rows n hle
    rw [pad_loop_eq_of_ge rows n (by omega)]
    omega
  | succ m ih =>
    intro rows n hle
    by_cases h : rows.length < n
    · rw [pad_loop_eq_step rows n h]
      apply ih
      rw [List.length_append, pad_rows_length]
      omega
    · rw [pad_loop_eq_of_ge rows n (by omega)]
      omega

theorem pad_loop_getD (d : KRow Int) :
    ∀ (m : Nat) (rows : List (KRow Int)) (n : Nat), n - rows.length ≤ m →
      ∀ i : Nat, i < (pad_loop rows n).length →
        (pad_loop rows n).getD i d
          = if i < rows.length then rows.getD i d
            else pad_rows.getD ((i - rows.length) % 24) d := by
  intro m
  induction m with
  | zero =>
    intro rows n hle i hi
    rw [pad_loop_eq_of_ge rows n (by omega)] at hi ⊢
    rw [if_pos hi]
  | succ m ih =>
    intro rows n hle i hi
    by_cases h : rows.length < n
    · rw [pad_loop_eq_step rows n h] at hi ⊢
      rw [ih (rows ++ pad_rows) n
        (by rw [List.length_append, pad_rows_length]; omega) i hi]
      rw [List.length_append, pad_rows_length]
      by_cases h1 : i < rows.length
      · rw [if_pos (by omega), if_pos h1, List.getD_append _ _ _ _ h1]
      · rw [if_neg h1]
        by_cases h2 : i < rows.length + 24
        · rw [if_pos h2, List.getD_append_right _ _ _ _ (by omega)]
          congr 1
          omega
        · rw [if_neg h2]
          congr 1
          omega
    · rw [pad_loop_eq_of_ge rows n (by omega)] at hi ⊢
      rw [if_pos hi]

theorem flatMap_real_getD (d : KRow Int) :
    ∀ (inputs : List (Fin 25 → Nat)) (i : Nat), i < 24 * inputs.length →
      ∀ (h24 : i / 24 < inputs.length),
        (inputs.flatMap real_block).getD i d
          = (real_block (inputs.get ⟨i / 24, h24⟩)).getD (i % 24) d := by
  intro inputs
  induction inputs with
  | nil => intro i hi h24; simp at hi
  | cons a l ih =>
    intro i hi h24
    rw [List.flatMap_cons]
    by_cases h : i < 24
    · have hdiv : i / 24 = 0 := by omega
      have hmod : i % 24 = i := by omega
      rw [List.getD_append _ _ _ _ (by rw [real_block_length]; omega)]
      have hget : (a :: l).get ⟨i / 24, h24⟩ = a := by
        rw [List.get_eq_getElem]
        simp [hdiv]
      rw [hget, hmod]
    · have h1 : 24 * l.length > i - 24 := by simp at hi; omega
      have h24l : (i - 24) / 24 < l.length := by omega
      rw [List.getD_append_right _ _ _ _ (by rw [real_block_length]; omega),
        real_block_length, ih (i - 24) h1 h24l]
      have hgets : (a :: l).get ⟨i / 24, h24⟩ = l.get ⟨(i - 24) / 24, h24l⟩ := by
        have hv : i / 24 = (i - 24) / 24 + 1 := by omega
        rcases hv2 : (⟨i / 24, h24⟩ : Fin (a :: l).length) with ⟨iv, hiv⟩
        simp only [List.get_eq_getElem]
        have : iv = (i - 24) / 24 + 1 := by
          have := Fin.mk.injEq .. ▸ hv2
          omega
        subst this
        simp
      rw [hgets]
      congr 1
      omega

theorem real_block_getD (input : Fin 25 → Nat) (d : KRow Int) (j : Nat)
    (hj : j < 24) :
    (real_block input).getD j d
      = if j = 23 then set_filter (perm_round_row input 23)
        else perm_round_row input j := by
  unfold real_block
  rw [List.getD_eq_getElem _ _
    (by rw [List.length_set, perm_rows_length]; omega)]
  by_cases h : j = 23
  · subst h
    rw [if_pos rfl]
    have h23 : (NUM_ROUNDS - 1) = 23 := rfl
    rw [h23, List.getElem_set_self]
  · rw [if_neg h, List.getElem_set_ne
      (by have h24 : NUM_ROUNDS = 24 := rfl; omega)]
    unfold generate_trace_rows_for_perm
    rw [List.getElem_map, List.getElem_range]

theorem pad_rows_getD (d : KRow Int) (j : Nat) (hj : j < 24) :
    pad_rows.getD j d = perm_round_row (fun _ => 0) j := by
  unfold pad_rows generate_trace_rows_for_perm
  rw [List.getD_eq_getElem _ _ (by simp [NUM_ROUNDS]; omega), List.getElem_map,
    List.getElem_range]

theorem generate_trace_rows_length (inputs : List (Fin 25 → Nat))
    (min_rows : Nat) :
    (generate_trace_rows inputs min_rows).length
      = next_power_of_two (max (inputs.length * NUM_ROUNDS) min_rows) := by
  unfold generate_trace_rows
  rw [List.length_take]
  have hge := pad_loop_length_ge
    (next_power_of_two (max (inputs.length * NUM_ROUNDS) min_rows))
    (inputs.flatMap real_block)
    (next_power_of_two (max (inputs.length * NUM_ROUNDS) min_rows)) (by omega)
  omega

theorem generate_trace_rows_getD (inputs : List (Fin 25 → Nat))
    (min_rows : Nat) (i : Nat)
    (hi : i < (generate_trace_rows inputs min_rows).length) :
    (generate_trace_rows inputs min_rows).getD i zeroRow
      = if h : i < 24 * inputs.length
        then (if i % 24 = 23
              then set_filter (perm_round_row (inputs.get ⟨i / 24, by omega⟩) 23)
              else perm_round_row (inputs.get ⟨i / 24, by omega⟩) (i % 24))
        else perm_round_row (fun _ => 0) (i % 24) := by
  have hlen := generate_trace_rows_length inputs min_rows
  have hin : i < next_power_of_two (max (inputs.length * NUM_ROUNDS) min_rows) := by
    omega
  unfold generate_trace_rows
  have hpl := pad_loop_length_ge
    (next_power_of_two (max (inputs.length * NUM_ROUNDS) min_rows))
    (inputs.flatMap real_block)
    (next_power_of_two (max (inputs.length * NUM_ROUNDS) min_rows)) (by omega)
  have htake : (List.take (next_power_of_two (max (inputs.length * NUM_ROUNDS) min_rows))
      (pad_loop (inputs.flatMap real_block)
        (next_power_of_two (max (inputs.length * NUM_ROUNDS) min_rows)))).getD i zeroRow
      = (pad_loop (inputs.flatMap real_block)
        (next_power_of_two (max (inputs.length * NUM_ROUNDS) min_rows))).getD i zeroRow := by
    rw [List.getD_eq_getElem _ _ (by rw [List.length_take]; omega),
      List.getD_eq_getElem _ _ (by omega), List.getElem_take]
  rw [htake, pad_loop_getD zeroRow
    (next_power_of_two (max (inputs.length * NUM_ROUNDS) min_rows)) _ _ (by omega) i
    (by omega)]
  rw [real_rows_length]
  by_cases h : i < 24 * inputs.length
  · rw [if_pos h, dif_pos h,
      flatMap_real_getD zeroRow inputs i h (by omega),
      real_block_getD _ _ _ (by omega)]
  · rw [if_neg h, dif_neg h, pad_rows_getD _ _ (by omega)]
    congr 1
    have h24 : (24 : Nat) ∣ 24 * inputs.length := Dvd.intro _ rfl
    omega

/-! Vanishing of every per-row constraint on a generated row (with or
without the filter set). -/

theorem step_bool_gen (aIn : Fin 5 → Fin 5 → Fin 2 → Int) (r : Nat) (s : Fin 24) :
    (generate_trace_row_for_round aIn r).step s
      * ((generate_trace_row_for_round aIn r).step s - 1) = 0 := by
  rw [row_step]
  by_cases h : s.val = r <;> simp [h]

theorem step_sum_gen (aIn : Fin 5 → Fin 5 → Fin 2 → Int) (r : Nat) (hr : r < 24) :
    (((List.finRange 24).map (generate_trace_row_for_round aIn r).step)).sum - 1
      = 0 := by
  simp only [row_step]
  have h := onehot_list_sum (R := Int) hr (fun _ : Fin 24 => (1 : Int))
  simp only [mul_one] at h
  rw [h]
  ring

theorem round_flags_local_zero (aIn : Fin 5 → Fin 5 → Fin 2 → Int) (r : Nat)
    (hr : r < 24) :
    ∀ c ∈ round_flags_local (generate_trace_row_for_round aIn r), c = 0 := by
  intro c hc
  unfold round_flags_local at hc
  rw [List.mem_append] at hc
  rcases hc with hc | hc
  · rw [List.mem_map] at hc
    obtain ⟨s, _, hs⟩ := hc
    rw [← hs]
    exact step_bool_gen aIn r s
  · rw [List.mem_singleton] at hc
    rw [hc]
    exact step_sum_gen aIn r hr

theorem eval_local_zero (A : Fin 5 → Fin 5 → Nat) (hA : Bounded64 A) (r : Nat)
    (hr : r < 24) :
    ∀ c ∈ eval_packed_generic_local (generate_trace_row_for_round (limbsOf A) r),
      c = 0 := by
  intro c hc
  unfold eval_packed_generic_local at hc
  simp only [List.mem_append, List.mem_flatMap, List.mem_map, List.mem_cons,
    List.mem_finRange, true_and, List.not_mem_nil, or_false] at hc
  rcases hc with ((((((hc | hc) | hc) | hc) | hc) | hc) | hc) | hc
  · exact round_flags_local_zero (limbsOf A) r hr c hc
  · rcases hc with hc | hc
    · rw [hc]; exact filter_boolean_constraint_gen (limbsOf A) r
    · rw [hc]; exact filter_final_step_constraint_gen (limbsOf A) r
  · obtain ⟨x, z, hz⟩ := hc
    rw [← hz]
    exact c_prime_constraint_gen A hA r x z
  · obtain ⟨x, y, hy⟩ := hc
    rcases hy with h | h <;> rw [h]
    · exact a_limb_constraint_gen A hA r x y 0
    · exact a_limb_constraint_gen A hA r x y 1
  · obtain ⟨x, z, hz⟩ := hc
    rw [← hz]
    exact parity_constraint_gen A hA r x z
  · obtain ⟨x, y, hy⟩ := hc
    rcases hy with h | h <;> rw [h]
    · exact a_prime_prime_constraint_gen A hA r x y 0
    · exact a_prime_prime_constraint_gen A hA r x y 1
  · rcases hc with h | h <;> rw [h]
    · exact bit_decomp_constraint_gen A hA r 0
    · exact bit_decomp_constraint_gen A hA r 1
  · rcases hc with h | h <;> rw [h]
    · exact iota_constraint_gen A hA r hr 0
    · exact iota_constraint_gen A hA r hr 1

theorem round_flags_local_set_filter (v : KRow Int) :
    round_flags_local (set_filter v) = round_flags_local v := rfl

theorem eval_local_zero_filter (A : Fin 5 → Fin 5 → Nat) (hA : Bounded64 A) :
    ∀ c ∈ eval_packed_generic_local
        (set_filter (generate_trace_row_for_round (limbsOf A) 23)), c = 0 := by
  intro c hc
  unfold eval_packed_generic_local at hc
  simp only [List.mem_append, List.mem_flatMap, List.mem_map, List.mem_cons,
    List.mem_finRange, true_and, List.not_mem_nil, or_false] at hc
  have hsetCP : ∀ (v : KRow Int) (x : Fin 5) (z : Fin 64),
      c_prime_constraint (set_filter v) x z = c_prime_constraint v x z :=
    fun _ _ _ => rfl
  have hsetAL : ∀ (v : KRow Int) (x y : Fin 5) (l : Fin 2),
      a_limb_constraint (set_filter v) x y l = a_limb_constraint v x y l :=
    fun _ _ _ _ => rfl
  have hsetPA : ∀ (v : KRow Int) (x : Fin 5) (z : Fin 64),
      parity_constraint (set_filter v) x z = parity_constraint v x z :=
    fun _ _ _ => rfl
  have hsetAP : ∀ (v : KRow Int) (x y : Fin 5) (l : Fin 2),
      a_prime_prime_constraint (set_filter v) x y l
        = a_prime_prime_constraint v x y l :=
    fun _ _ _ _ => rfl
  have hsetBD : ∀ (v : KRow Int) (l : Fin 2),
      bit_decomp_constraint (set_filter v) l = bit_decomp_constraint v l :=
    fun _ _ => rfl
  have hsetIO : ∀ (v : KRow Int) (l : Fin 2),
      iota_constraint (set_filter v) l = iota_constraint v l :=
    fun _ _ => rfl
  rcases hc with ((((((hc | hc) | hc) | hc) | hc) | hc) | hc) | hc
  · rw [round_flags_local_set_filter] at hc
    exact round_flags_local_zero (limbsOf A) 23 (by omega) c hc
  · rcases hc with hc | hc
    · rw [hc]
      show (1 : Int) * (1 - 1) = 0
      norm_num
    · rw [hc]
      show (1 - (if ((23 : Fin 24)).val = 23 then (1 : Int) else 0)) * 1 = 0
      decide
  · obtain ⟨x, z, hz⟩ := hc
    rw [← hz, hsetCP]
    exact c_prime_constraint_gen A hA 23 x z
  · obtain ⟨x, y, hy⟩ := hc
    rcases hy with h | h <;> rw [h, hsetAL]
    · exact a_limb_constraint_gen A hA 23 x y 0
    · exact a_limb_constraint_gen A hA 23 x y 1
  · obtain ⟨x, z, hz⟩ := hc
    rw [← hz, hsetPA]
    exact parity_constraint_gen A hA 23 x z
  · obtain ⟨x, y, hy⟩ := hc
    rcases hy with h | h <;> rw [h, hsetAP]
    · exact a_prime_prime_constraint_gen A hA 23 x y 0
    · exact a_prime_prime_constraint_gen A hA 23 x y 1
  · rcases hc with h | h <;> rw [h, hsetBD]
    · exact bit_decomp_constraint_gen A hA 23 0
    · exact bit_decomp_constraint_gen A hA 23 1
  · rcases hc with h | h <;> rw [h, hsetIO]
    · exact iota_constraint_gen A hA 23 (by omega) 0
    · exact iota_constraint_gen A hA 23 (by omega) 1

/-! Projections of block rows and table rows. -/

theorem perm_row_gen (input : Fin 25 → Nat) (r : Nat) :
    ∃ aIn, perm_round_row input r = generate_trace_row_for_round aIn r := by
  cases r with
  | zero => exact ⟨input_limbs input, rfl⟩
  | succ n => exact ⟨copy_output_to_input (perm_round_row input n), rfl⟩

theorem perm_row_step (input : Fin 25 → Nat) (r : Nat) :
    (perm_round_row input r).step = fun s => if s.val = r then 1 else 0 := by
  obtain ⟨aIn, h⟩ := perm_row_gen input r
  rw [h, row_step]

theorem perm_row_filter (input : Fin 25 → Nat) (r : Nat) :
    (perm_round_row input r).filter = 0 := by
  obtain ⟨aIn, h⟩ := perm_row_gen input r
  rw [h, row_filter]

theorem perm_row_a_succ (input : Fin 25 → Nat) (r : Nat) (x y : Fin 5) (l : Fin 2) :
    (perm_round_row input (r + 1)).a x y l
      = (perm_round_row input r).reg_a_prime_prime_prime x y l := rfl

theorem table_step (inputs : List (Fin 25 → Nat)) (min_rows : Nat) (i : Nat)
    (hi : i < (generate_trace_rows inputs min_rows).length) (s : Fin 24) :
    ((generate_trace_rows inputs min_rows).getD i zeroRow).step s
      = if s.val = i % 24 then 1 else 0 := by
  rw [generate_trace_rows_getD inputs min_rows i hi]
  by_cases h : i < 24 * inputs.length
  · rw [dif_pos h]
    by_cases h23 : i % 24 = 23
    · rw [if_pos h23]
      rw [show (set_filter (perm_round_row (inputs.get ⟨i / 24, by omega⟩) 23)).step
          = (perm_round_row (inputs.get ⟨i / 24, by omega⟩) 23).step from rfl,
        perm_row_step, h23]
    · rw [if_neg h23, perm_row_step]
  · rw [dif_neg h, perm_row_step]

theorem table_filter (inputs : List (Fin 25 → Nat)) (min_rows : Nat) (i : Nat)
    (hi : i < (generate_trace_rows inputs min_rows).length) :
    ((generate_trace_rows inputs min_rows).getD i zeroRow).filter
      = if i < 24 * inputs.length ∧ i % 24 = 23 then 1 else 0 := by
  rw [generate_trace_rows_getD inputs min_rows i hi]
  by_cases h : i < 24 * inputs.length
  · rw [dif_pos h]
    by_cases h23 : i % 24 = 23
    · rw [if_pos h23, if_pos ⟨h, h23⟩]
      rfl
    · rw [if_neg h23, if_neg (fun hh => h23 hh.2), perm_row_filter]
  · rw [dif_neg h, if_neg (fun hh => h hh.1), perm_row_filter]

theorem table_chaining (inputs : List (Fin 25 → Nat)) (min_rows : Nat) (i : Nat)
    (hi1 : i + 1 < (generate_trace_rows inputs min_rows).length) :
    ((generate_trace_rows inputs min_rows).getD i zeroRow).step 23 = 1
      ∨ ∀ (x y : Fin 5) (l : Fin 2),
          ((generate_trace_rows inputs min_rows).getD (i + 1) zeroRow).a x y l
            = ((generate_trace_rows inputs min_rows).getD i
                zeroRow).reg_a_prime_prime_prime x y l := by
  have hi : i < (generate_trace_rows inputs min_rows).length := by omega
  by_cases h23 : i % 24 = 23
  · left
    rw [table_step inputs min_rows i hi 23, if_pos]
    rw [h23]
    decide
  · right
    intro x y l
    rw [generate_trace_rows_getD inputs min_rows i hi,
      generate_trace_rows_getD inputs min_rows (i + 1) hi1]
    have hdvd : (24 : Nat) ∣ 24 * inputs.length := Dvd.intro _ rfl
    by_cases h : i < 24 * inputs.length
    · have hnext : i + 1 < 24 * inputs.length := by
        rcases Nat.lt_or_ge (i + 1) (24 * inputs.length) with hh | hh
        · exact hh
        · exfalso
          have : i + 1 = 24 * inputs.length := by omega
          omega
      rw [dif_pos h, dif_pos hnext, if_neg h23]
      have hq : (i + 1) / 24 = i / 24 := by omega
      have hsucc : (i + 1) % 24 = i % 24 + 1 := by omega
      by_cases hn23 : (i + 1) % 24 = 23
      · rw [if_pos hn23]
        rw [show (set_filter (perm_round_row
            (inputs.get ⟨(i + 1) / 24, by omega⟩) 23)).a
            = (perm_round_row (inputs.get ⟨(i + 1) / 24, by omega⟩) 23).a from rfl]
        have h22 : i % 24 = 22 := by omega
        have hget : (inputs.get ⟨(i + 1) / 24, by omega⟩ : Fin 25 → Nat)
            = inputs.get ⟨i / 24, by omega⟩ := by
          congr 1
          exact Fin.ext hq
        rw [hget, h22]
        exact perm_row_a_succ _ 22 x y l
      · rw [if_neg hn23]
        have hget : (inputs.get ⟨(i + 1) / 24, by omega⟩ : Fin 25 → Nat)
            = inputs.get ⟨i / 24, by omega⟩ := by
          congr 1
          exact Fin.ext hq
        rw [hget, hsucc]
        exact perm_row_a_succ _ _ x y l
    · have hnext : ¬(i + 1 < 24 * inputs.length) := by omega
      rw [dif_neg h, dif_neg hnext]
      have hsucc : (i + 1) % 24 = i % 24 + 1 := by omega
      rw [hsucc]
      exact perm_row_a_succ _ _ x y l

theorem stateToArr_lane (out : Fin 5 → Fin 5 → Nat) (x y : Fin 5) (k : Fin 25)
    (hk : k.val = 5 * y.val + x.val) : stateToArr out k = out x y := by
  unfold stateToArr
  congr 1 <;> apply Fin.ext <;> simp <;> omega

theorem generate_public_inputs_eq (out : Fin 5 → Fin 5 → Nat) (x y : Fin 5)
    (l : Fin 2) :
    generate_public_inputs (stateToArr out) (pubIndex x y l) = limbsOf out x y l := by
  have hidx : (pubIndex x y l).val = 2 * (5 * y.val + x.val) + l.val := rfl
  unfold generate_public_inputs
  by_cases hl : l = 0
  · subst hl
    rw [if_pos (by rw [hidx]; omega)]
    rw [stateToArr_lane out x y _ (by simp only [hidx]; omega)]
    unfold limbsOf
    rw [if_pos rfl]
    congr 1
    rw [show (0xFFFFFFFF : Nat) = 2 ^ 32 - 1 by norm_num, and_two_pow_sub_one]
  · have hv1 : l.val ≠ 0 := fun hh => hl (Fin.ext hh)
    have hl1 : l = 1 := Fin.ext (by omega)
    subst hl1
    rw [if_neg (by rw [hidx]; omega)]
    rw [stateToArr_lane out x y _ (by simp only [hidx]; omega)]
    unfold limbsOf
    rw [if_neg hl]
    congr 1
    rw [Nat.shiftRight_eq_div_pow]

/-! Vanishing of the transition constraints between consecutive table rows,
and of the per-row constraints on every table row. -/

theorem table_flags_transition_zero (inputs : List (Fin 25 → Nat))
    (min_rows : Nat) (i : Nat)
    (hi1 : i + 1 < (generate_trace_rows inputs min_rows).length) :
    ∀ c ∈ round_flags_transition
        ((generate_trace_rows inputs min_rows).getD i zeroRow)
        ((generate_trace_rows inputs min_rows).getD (i + 1) zeroRow), c = 0 := by
  intro c hc
  unfold round_flags_transition at hc
  rw [List.mem_map] at hc
  obtain ⟨s, _, hs⟩ := hc
  rw [← hs, table_step _ _ i (by omega) s, table_step _ _ (i + 1) hi1 (s + 1)]
  have hval : (s + 1 : Fin 24).val = (s.val + 1) % 24 := by
    simp [Fin.add_def]
  rw [hval]
  have hiff : ((s.val + 1) % 24 = (i + 1) % 24) ↔ (s.val = i % 24) := by
    constructor <;> intro h <;> omega
  by_cases h : s.val = i % 24
  · rw [if_pos (hiff.mpr h), if_pos h]
    ring
  · rw [if_neg (fun hh => h (hiff.mp hh)), if_neg h]
    ring

theorem table_chaining_zero (inputs : List (Fin 25 → Nat)) (min_rows : Nat)
    (i : Nat) (hi1 : i + 1 < (generate_trace_rows inputs min_rows).length)
    (x y : Fin 5) (l : Fin 2) :
    chaining_constraint ((generate_trace_rows inputs min_rows).getD i zeroRow)
      ((generate_trace_rows inputs min_rows).getD (i + 1) zeroRow) x y l = 0 := by
  unfold chaining_constraint
  rcases table_chaining inputs min_rows i hi1 with h | h
  · rw [h]
    ring
  · rw [h x y l]
    ring

theorem zero_lanes_bounded : Bounded64 (lanesOfInput fun _ => 0) := by
  intro x y
  unfold lanesOfInput
  norm_num

theorem table_local_zero (inputs : List (Fin 25 → Nat))
    (hb : ∀ inp ∈ inputs, Bounded64 (lanesOfInput inp)) (min_rows : Nat)
    (i : Nat) (hi : i < (generate_trace_rows inputs min_rows).length) :
    ∀ c ∈ eval_packed_generic_local
        ((generate_trace_rows inputs min_rows).getD i zeroRow), c = 0 := by
  rw [generate_trace_rows_getD inputs min_rows i hi]
  by_cases h : i < 24 * inputs.length
  · rw [dif_pos h]
    have hmem : inputs.get ⟨i / 24, by omega⟩ ∈ inputs := List.get_mem _ _ _
    have hbq := hb _ hmem
    by_cases h23 : i % 24 = 23
    · rw [if_pos h23]
      rw [perm_round_row_eq _ hbq 23]
      exact eval_local_zero_filter _ (keccakRounds_bounded hbq 23)
    · rw [if_neg h23]
      rw [perm_round_row_eq _ hbq (i % 24)]
      exact eval_local_zero _ (keccakRounds_bounded hbq (i % 24)) (i % 24)
        (by omega)
  · rw [dif_neg h]
    rw [perm_round_row_eq _ zero_lanes_bounded (i % 24)]
    exact eval_local_zero _ (keccakRounds_bounded zero_lanes_bounded (i % 24))
      (i % 24) (by omega)

theorem toLanes_bounded (inp : Fin 25 → U64) :
    Bounded64 (lanesOfInput (toLanes inp)) := by
  intro x y
  unfold lanesOfInput toLanes
  exact (inp _).isLt

theorem table_output_match_zero_single (inp : Fin 25 → U64) (min_rows : Nat)
    (i : Nat)
    (hi : i < (generate_trace_rows [toLanes inp] min_rows).length)
    (x y : Fin 5) (l : Fin 2) :
    output_match_constraint
      ((generate_trace_rows [toLanes inp] min_rows).getD i zeroRow)
      (generate_public_inputs
        (stateToArr (keccakF (lanesOfInput (toLanes inp))))) x y l = 0 := by
  unfold output_match_constraint
  by_cases h23 : i < 24 * ([toLanes inp] : List (Fin 25 → Nat)).length ∧ i % 24 = 23
  · have hlen : ([toLanes inp] : List (Fin 25 → Nat)).length = 1 := rfl
    have hi23 : i = 23 := by omega
    subst hi23
    rw [generate_trace_rows_getD _ min_rows 23 hi, dif_pos (by omega),
      if_pos (by omega)]
    have hget : ([toLanes inp] : List (Fin 25 → Nat)).get ⟨23 / 24, by omega⟩
        = toLanes inp := rfl
    rw [hget]
    have hfields := set_filter_fields (perm_round_row (toLanes inp) 23)
    have happp : (set_filter (perm_round_row (toLanes inp) 23)).reg_a_prime_prime_prime
        x y l = (perm_round_row (toLanes inp) 23).reg_a_prime_prime_prime x y l := rfl
    rw [happp, hfields.2.2.2.2.2.2.2.2,
      perm_round_row_appp _ (toLanes_bounded inp) 23 x y l,
      generate_public_inputs_eq]
    have hk : keccakRounds (lanesOfInput (toLanes inp)) 24
        = keccakF (lanesOfInput (toLanes inp)) := rfl
    rw [show (23 + 1 : Nat) = 24 from rfl, hk]
    ring
  · rw [table_filter _ _ i hi, if_neg h23]
    ring

/-! Claim theorems. -/

/-- C3: for every 25-lane input instance, the 25 lanes reconstructed from the
`A'''` lo/hi limb registers of row 23 of the 24-row block generated by
`generate_trace_rows_for_perm` equal the output of the reference
(non-arithmetized) Keccak-f permutation applied to that input. -/
theorem claim_C3 (input : Fin 25 → U64) :
    (generate_trace_rows_for_perm (toLanes input)).get? 23
        = some (perm_round_row (toLanes input) 23)
      ∧ ∀ x y : Fin 5,
          reconLane (perm_round_row (toLanes input) 23) x y
            = keccakF (lanesOfInput (toLanes input)) x y := by
  constructor
  · unfold generate_trace_rows_for_perm
    rw [List.get?_eq_get (by simp [NUM_ROUNDS])]
    congr 1
  · intro x y
    unfold reconLane
    rw [perm_round_row_appp _ (toLanes_bounded input) 23 x y 0,
      perm_round_row_appp _ (toLanes_bounded input) 23 x y 1,
      limbsOf_zero_toNat, limbsOf_one_toNat]
    have hk : keccakRounds (lanesOfInput (toLanes input)) (23 + 1)
        = keccakF (lanesOfInput (toLanes input)) := rfl
    rw [hk]
    omega

/-- C4: for every list of input instances and every `min_rows`, the table
returned by `generate_trace_rows` has exactly
`next_power_of_two(max(24 * num_instances, min_rows))` rows: real 24-row
blocks in input order (with the filter set on each block's last row),
followed by copies of the all-zero-input padding block, truncated at exactly
that row count. -/
theorem claim_C4 (inputs : List (Fin 25 → U64)) (min_rows : Nat) :
    (generate_trace_rows (inputs.map toLanes) min_rows).length
        = next_power_of_two (max (24 * inputs.length) min_rows)
      ∧ ∀ i : Fin (generate_trace_rows (inputs.map toLanes) min_rows).length,
          (generate_trace_rows (inputs.map toLanes) min_rows).get i
            = if h : i.val < 24 * inputs.length
              then (if i.val % 24 = 23
                    then set_filter (perm_round_row
                      (toLanes (inputs.get ⟨i.val / 24, by omega⟩)) 23)
                    else perm_round_row
                      (toLanes (inputs.get ⟨i.val / 24, by omega⟩)) (i.val % 24))
              else perm_round_row (fun _ => 0) (i.val % 24) := by
  constructor
  · rw [generate_trace_rows_length, List.length_map]
    have h24 : NUM_ROUNDS = 24 := rfl
    rw [h24, Nat.mul_comm]
  · intro i
    rw [List.get_eq_getElem,
      ← List.getD_eq_getElem (generate_trace_rows (inputs.map toLanes) min_rows)
        zeroRow i.isLt,
      generate_trace_rows_getD _ min_rows i.val i.isLt]
    have hlm : (inputs.map toLanes).length = inputs.length := List.length_map _ _
    by_cases h : i.val < 24 * inputs.length
    · rw [dif_pos (by omega), dif_pos h]
      have hget : (inputs.map toLanes).get ⟨i.val / 24, by omega⟩
          = toLanes (inputs.get ⟨i.val / 24, by omega⟩) := by
        rw [List.get_eq_getElem, List.get_eq_getElem, List.getElem_map]
      rw [hget]
    · rw [dif_neg (by omega), dif_neg h]

/-- C5: in every generated table built from `k` real instances plus padding,
the filter register is 1 on exactly the rows `24 i + 23` for `i < k`
(equivalently the rows below `24 k` whose index is 23 mod 24), and 0 on
every other row. -/
theorem claim_C5 (inputs : List (Fin 25 → U64)) (min_rows : Nat)
    (i : Fin (generate_trace_rows (inputs.map toLanes) min_rows).length) :
    ((generate_trace_rows (inputs.map toLanes) min_rows).get i).filter
      = if i.val % 24 = 23 ∧ i.val < 24 * inputs.length then 1 else 0 := by
  rw [List.get_eq_getElem,
    ← List.getD_eq_getElem (generate_trace_rows (inputs.map toLanes) min_rows)
      zeroRow i.isLt,
    table_filter _ min_rows i.val i.isLt, List.length_map]
  by_cases h1 : i.val < 24 * inputs.length <;> by_cases h2 : i.val % 24 = 23
  · rw [if_pos ⟨h1, h2⟩, if_pos ⟨h2, h1⟩]
  · rw [if_neg (fun hh => h2 hh.2), if_neg (fun hh => h2 hh.1)]
  · rw [if_neg (fun hh => h1 hh.1), if_neg (fun hh => h1 hh.2)]
  · rw [if_neg (fun hh => h1 hh.1), if_neg (fun hh => h1 hh.2)]

/-- C7: `generate_public_inputs` returns the 50 field elements in which, for
every lane index `i = 5 y + x`, entry `2 i` is the low 32 bits and entry
`2 i + 1` the high 32 bits of output lane `i`; this indexing (row-major
`(y, x)`, lo then hi) is exactly the index `2 (5 y + x) + limb` the
evaluator's output-match transition constraint reads from the public-input
vector when comparing it against the `A'''` registers of the current row. -/
theorem claim_C7 (out : Fin 25 → U64) (i : Fin 25) (x y : Fin 5) (l : Fin 2) :
    generate_public_inputs (toLanes out) ⟨2 * i.val, by omega⟩
        = Int.ofNat (toLanes out i % 2 ^ 32)
      ∧ generate_public_inputs (toLanes out) ⟨2 * i.val + 1, by omega⟩
        = Int.ofNat (toLanes out i / 2 ^ 32)
      ∧ (pubIndex x y l).val = 2 * (5 * y.val + x.val) + l.val
      ∧ (∀ (lv : KRow Int) (pub : Fin 50 → Int),
          output_match_constraint lv pub x y l
            = lv.filter
              * (lv.reg_a_prime_prime_prime x y l - pub (pubIndex x y l)))
      ∧ ∀ (lv nv : KRow Int) (pub : Fin 50 → Int),
          output_match_constraint lv pub x y l
            ∈ eval_packed_generic_transition lv nv pub := by
  refine ⟨?_, ?_, rfl, fun _ _ => rfl, fun lv nv pub => ?_⟩
  · unfold generate_public_inputs
    rw [if_pos (by simp)]
    have harg : (⟨(⟨2 * i.val, by omega⟩ : Fin 50).val / 2, by omega⟩ : Fin 25)
        = i := by
      apply Fin.ext
      simp
    rw [harg]
    congr 1
    rw [show (0xFFFFFFFF : Nat) = 2 ^ 32 - 1 by norm_num, and_two_pow_sub_one]
  · unfold generate_public_inputs
    rw [if_neg (by simp; omega)]
    have harg : (⟨(⟨2 * i.val + 1, by omega⟩ : Fin 50).val / 2, by omega⟩ : Fin 25)
        = i := by
      apply Fin.ext
      simp
      omega
    rw [harg]
    congr 1
    rw [Nat.shiftRight_eq_div_pow]
  · unfold eval_packed_generic_transition
    simp only [List.mem_append, List.mem_flatMap, List.mem_cons,
      List.mem_finRange, true_and, List.not_mem_nil, or_false]
    left
    right
    refine ⟨x, y, ?_⟩
    by_cases hl : l = 0
    · subst hl
      left
      rfl
    · have hv1 : l.val ≠ 0 := fun hh => hl (Fin.ext hh)
      have hl1 : l = 1 := Fin.ext (by omega)
      subst hl1
      right
      rfl

/-- C10: whenever at least one input instance is supplied, the generated
table always contains padding rows, its power-of-two length is never a
multiple of 24 (so the final padding block is truncated mid-block), the last
row carries the step flag of some round strictly before 23 and has filter 0,
and consequently no filter-1 row is the table's final row. -/
theorem claim_C10 (inp0 : Fin 25 → U64) (rest : List (Fin 25 → U64))
    (min_rows : Nat) :
    24 * ((inp0 :: rest).map toLanes).length
        < (generate_trace_rows ((inp0 :: rest).map toLanes) min_rows).length
      ∧ ¬(24 ∣ (generate_trace_rows ((inp0 :: rest).map toLanes) min_rows).length)
      ∧ ((generate_trace_rows ((inp0 :: rest).map toLanes) min_rows).getD
          ((generate_trace_rows ((inp0 :: rest).map toLanes) min_rows).length - 1)
          zeroRow).filter = 0
      ∧ ∃ r : Fin 24, r.val < 23
          ∧ ((generate_trace_rows ((inp0 :: rest).map toLanes) min_rows).getD
              ((generate_trace_rows ((inp0 :: rest).map toLanes) min_rows).length
                - 1) zeroRow).step r = 1 := by
  have hlen := generate_trace_rows_length ((inp0 :: rest).map toLanes) min_rows
  have hlm : ((inp0 :: rest).map toLanes).length = rest.length + 1 := by
    rw [List.length_map, List.length_cons]
  have hpow : ∀ k : Nat, ¬((24 : Nat) ∣ 2 ^ k) := by
    intro k hdvd
    have h3 : (3 : Nat) ∣ 2 ^ k := dvd_trans (by norm_num) hdvd
    have h32 : (3 : Nat) ∣ 2 := (Nat.Prime.dvd_of_dvd_pow (by norm_num)) h3
    norm_num at h32
  have hle : ((inp0 :: rest).map toLanes).length * 24
      ≤ 2 ^ Nat.clog 2 (max (((inp0 :: rest).map toLanes).length * 24)
          min_rows) :=
    le_trans (le_max_left _ _) (Nat.le_pow_clog (by norm_num) _)
  have hnum : (generate_trace_rows ((inp0 :: rest).map toLanes) min_rows).length
      = 2 ^ Nat.clog 2 (max (((inp0 :: rest).map toLanes).length * 24)
          min_rows) := by
    rw [hlen]
    rfl
  have hndvd : ¬(24 ∣ (generate_trace_rows ((inp0 :: rest).map toLanes)
      min_rows).length) := by
    rw [hnum]
    exact hpow _
  have hgt : 24 * ((inp0 :: rest).map toLanes).length
      < (generate_trace_rows ((inp0 :: rest).map toLanes) min_rows).length := by
    rcases Nat.lt_or_ge (24 * ((inp0 :: rest).map toLanes).length)
      ((generate_trace_rows ((inp0 :: rest).map toLanes) min_rows).length)
      with hh | hh
    · exact hh
    · exfalso
      have heq : 24 * ((inp0 :: rest).map toLanes).length
          = (generate_trace_rows ((inp0 :: rest).map toLanes) min_rows).length := by
        rw [hnum]
        rw [hnum] at hh
        omega
      apply hndvd
      rw [← heq]
      exact Dvd.intro _ rfl
  have hpos : 0 < (generate_trace_rows ((inp0 :: rest).map toLanes)
      min_rows).length := by omega
  have hlast : (generate_trace_rows ((inp0 :: rest).map toLanes)
      min_rows).length - 1
      < (generate_trace_rows ((inp0 :: rest).map toLanes) min_rows).length := by
    omega
  have hmod : ((generate_trace_rows ((inp0 :: rest).map toLanes)
      min_rows).length - 1) % 24 ≠ 23 := by
    intro hh
    apply hndvd
    omega
  refine ⟨hgt, hndvd, ?_, ?_⟩
  · rw [table_filter _ min_rows _ hlast]
    rw [if_neg (fun hh => hmod hh.2)]
  · refine ⟨⟨((generate_trace_rows ((inp0 :: rest).map toLanes)
        min_rows).length - 1) % 24, Nat.mod_lt _ (by omega)⟩, ?_, ?_⟩
    · show ((generate_trace_rows ((inp0 :: rest).map toLanes)
        min_rows).length - 1) % 24 < 23
      omega
    · rw [table_step _ min_rows _ hlast]
      rw [if_pos rfl]

theorem chaining_mem_transition (lv nv : KRow Int) (pub : Fin 50 → Int)
    (x y : Fin 5) (l : Fin 2) :
    chaining_constraint lv nv x y l ∈ eval_packed_generic_transition lv nv pub := by
  unfold eval_packed_generic_transition
  simp only [List.mem_append, List.mem_flatMap, List.mem_cons,
    List.mem_finRange, true_and, List.not_mem_nil, or_false]
  right
  refine ⟨x, y, ?_⟩
  by_cases hl : l = 0
  · subst hl
    left
    rfl
  · have hv1 : l.val ≠ 0 := fun hh => hl (Fin.ext hh)
    have hl1 : l = 1 := Fin.ext (by omega)
    subst hl1
    right
    rfl

theorem parity_mem_local {R : Type} [CommRing R] (lv : KRow R) (x : Fin 5)
    (z : Fin 64) :
    parity_constraint lv x z ∈ eval_packed_generic_local lv := by
  unfold eval_packed_generic_local
  simp only [List.mem_append, List.mem_flatMap, List.mem_map, List.mem_cons,
    List.mem_finRange, true_and, List.not_mem_nil, or_false]
  left
  left
  left
  right
  exact ⟨x, z, rfl⟩

/-- C6: in every generated table, every row whose `step[23]` register is not
one passes its `A'''` limbs to the next row's input limbs for all 25 lanes
(stated as: either `step[23] = 1` or the copy holds); and the evaluator
emits, for every lane and limb, exactly the transition constraint
`(1 - step[23]) * (A''' limb - next-row A limb)`. -/
theorem claim_C6 (inputs : List (Fin 25 → U64)) (min_rows : Nat)
    (i : Fin ((generate_trace_rows (inputs.map toLanes) min_rows).length - 1)) :
    (((generate_trace_rows (inputs.map toLanes) min_rows).getD i.val
          zeroRow).step 23 = 1
        ∨ ∀ (x y : Fin 5) (l : Fin 2),
            ((generate_trace_rows (inputs.map toLanes) min_rows).getD (i.val + 1)
                zeroRow).a x y l
              = ((generate_trace_rows (inputs.map toLanes) min_rows).getD i.val
                  zeroRow).reg_a_prime_prime_prime x y l)
      ∧ (∀ (lv nv : KRow Int) (x y : Fin 5) (l : Fin 2),
          chaining_constraint lv nv x y l
            = (1 - lv.step 23) * (lv.reg_a_prime_prime_prime x y l - nv.a x y l))
      ∧ ∀ (lv nv : KRow Int) (pub : Fin 50 → Int) (x y : Fin 5) (l : Fin 2),
          chaining_constraint lv nv x y l
            ∈ eval_packed_generic_transition lv nv pub := by
  refine ⟨?_, fun _ _ _ _ _ => rfl, fun lv nv pub x y l =>
    chaining_mem_transition lv nv pub x y l⟩
  exact table_chaining (inputs.map toLanes) min_rows i.val (by omega)

/-- C8: in every row of every generated table, for every `x` and `z`, the
field-element sum of the five bits `A'[x, 0..5, z]` minus `C'[x, z]` is 0, 2
or 4; and the native evaluator emits for every `x` and `z` exactly the cubic
constraint `diff * (diff - 2) * (diff - 4)` on that difference. -/
theorem claim_C8 (inputs : List (Fin 25 → U64)) (min_rows : Nat)
    (i : Fin (generate_trace_rows (inputs.map toLanes) min_rows).length)
    (x : Fin 5) (z : Fin 64) :
    (parity_diff ((generate_trace_rows (inputs.map toLanes) min_rows).get i) x z
          = 0
        ∨ parity_diff ((generate_trace_rows (inputs.map toLanes) min_rows).get i)
            x z = 2
        ∨ parity_diff ((generate_trace_rows (inputs.map toLanes) min_rows).get i)
            x z = 4)
      ∧ (∀ lv : KRow Int,
          parity_constraint lv x z
            = parity_diff lv x z * (parity_diff lv x z - 2)
              * (parity_diff lv x z - 4))
      ∧ ∀ lv : KRow Int, parity_constraint lv x z ∈ eval_packed_generic_local lv := by
  refine ⟨?_, fun _ => rfl, fun lv => parity_mem_local lv x z⟩
  rw [List.get_eq_getElem,
    ← List.getD_eq_getElem (generate_trace_rows (inputs.map toLanes) min_rows)
      zeroRow i.isLt,
    generate_trace_rows_getD _ min_rows i.val i.isLt]
  have hsetPD : ∀ (v : KRow Int),
      parity_diff (set_filter v) x z = parity_diff v x z := fun _ => rfl
  by_cases h : i.val < 24 * (inputs.map toLanes).length
  · rw [dif_pos h]
    have hmem : (inputs.map toLanes).get ⟨i.val / 24, by omega⟩ ∈ inputs.map toLanes :=
      List.get_mem _ _ _
    obtain ⟨inp, _, hinp⟩ := List.mem_map.mp hmem
    have hbq : Bounded64 (lanesOfInput
        ((inputs.map toLanes).get ⟨i.val / 24, by omega⟩)) := by
      rw [← hinp]
      exact toLanes_bounded inp
    by_cases h23 : i.val % 24 = 23
    · rw [if_pos h23, hsetPD, perm_round_row_eq _ hbq 23]
      exact parity_diff_gen _ (keccakRounds_bounded hbq 23) 23 x z
    · rw [if_neg h23, perm_round_row_eq _ hbq (i.val % 24)]
      exact parity_diff_gen _ (keccakRounds_bounded hbq (i.val % 24)) (i.val % 24)
        x z
  · rw [dif_neg h, perm_round_row_eq _ zero_lanes_bounded (i.val % 24)]
    exact parity_diff_gen _ (keccakRounds_bounded zero_lanes_bounded (i.val % 24))
      (i.val % 24) x z

theorem table_transition_zero_single (inp : Fin 25 → U64) (min_rows : Nat)
    (i : Nat)
    (hi1 : i + 1 < (generate_trace_rows [toLanes inp] min_rows).length) :
    ∀ c ∈ eval_packed_generic_transition
        ((generate_trace_rows [toLanes inp] min_rows).getD i zeroRow)
        ((generate_trace_rows [toLanes inp] min_rows).getD (i + 1) zeroRow)
        (generate_public_inputs
          (stateToArr (keccakF (lanesOfInput (toLanes inp))))), c = 0 := by
  intro c hc
  unfold eval_packed_generic_transition at hc
  simp only [List.mem_append, List.mem_flatMap, List.mem_cons,
    List.mem_finRange, true_and, List.not_mem_nil, or_false] at hc
  rcases hc with (hc | hc) | hc
  · exact table_flags_transition_zero _ min_rows i hi1 c hc
  · obtain ⟨x, y, hy⟩ := hc
    rcases hy with h | h <;> rw [h]
    · exact table_output_match_zero_single inp min_rows i (by omega) x y 0
    · exact table_output_match_zero_single inp min_rows i (by omega) x y 1
  · obtain ⟨x, y, hy⟩ := hc
    rcases hy with h | h <;> rw [h]
    · exact table_chaining_zero _ min_rows i hi1 x y 0
    · exact table_chaining_zero _ min_rows i hi1 x y 1

/-- C1 (amended to a single instance): for every single input instance and
every `min_rows`, the table produced by `generate_trace_rows`, paired with
the public-input vector computed by `generate_public_inputs` from the
reference permutation's output for that instance, satisfies the native
evaluator: every per-row constraint evaluates to zero on every row, and
every transition constraint evaluates to zero on every pair of consecutive
rows.  (The original claim quantifies over arbitrary instance lists; it
fails for two instances with different outputs, see the counterexample.) -/
theorem claim_C1_amended (inp : Fin 25 → U64) (min_rows : Nat) :
    (∀ (i : Fin (generate_trace_rows [toLanes inp] min_rows).length),
        ∀ c ∈ eval_packed_generic_local
          ((generate_trace_rows [toLanes inp] min_rows).getD i.val zeroRow),
          c = 0)
      ∧ ∀ (i : Fin ((generate_trace_rows [toLanes inp] min_rows).length - 1)),
          ∀ c ∈ eval_packed_generic_transition
            ((generate_trace_rows [toLanes inp] min_rows).getD i.val zeroRow)
            ((generate_trace_rows [toLanes inp] min_rows).getD (i.val + 1)
              zeroRow)
            (generate_public_inputs
              (stateToArr (keccakF (lanesOfInput (toLanes inp))))),
            c = 0 := by
  have hb : ∀ inp2 ∈ ([toLanes inp] : List (Fin 25 → Nat)),
      Bounded64 (lanesOfInput inp2) := by
    intro inp2 h2
    rw [List.mem_singleton] at h2
    subst h2
    exact toLanes_bounded inp
  constructor
  · intro i c hc
    exact table_local_zero [toLanes inp] hb min_rows i.val i.isLt c hc
  · intro i c hc
    exact table_transition_zero_single inp min_rows i.val (by omega) c hc

theorem output_match_mem_transition (lv nv : KRow Int) (pub : Fin 50 → Int)
    (x y : Fin 5) (l : Fin 2) :
    output_match_constraint lv pub x y l
      ∈ eval_packed_generic_transition lv nv pub := by
  unfold eval_packed_generic_transition
  simp only [List.mem_append, List.mem_flatMap, List.mem_cons,
    List.mem_finRange, true_and, List.not_mem_nil, or_false]
  left
  right
  refine ⟨x, y, ?_⟩
  by_cases hl : l = 0
  · subst hl
    left
    rfl
  · have hv1 : l.val ≠ 0 := fun hh => hl (Fin.ext hh)
    have hl1 : l = 1 := Fin.ext (by omega)
    subst hl1
    right
    rfl

set_option maxRecDepth 100000 in
set_option maxHeartbeats 2000000 in
theorem keccakF_zero_test_vector :
    keccakRoundsList (List.replicate 25 0) 24
      = [0xf1258f7940e1dde7, 0x84d5ccf933c0478a, 0xd598261ea65aa9ee,
          0xbd1547306f80494d, 0x8b284e056253d057, 0xff97a42d7f8e6fd4,
          0x90fee5a0a44647c4, 0x8c5bda0cd6192e76, 0xad30a6f71b19059c,
          0x30935ab7d08ffc64, 0xeb5aa93f2317d635, 0xa9a6e6260d712103,
          0x81a57c16dbcf555f, 0x43b831cd0347c826, 0x01f22f1a11a5569f,
          0x05e5635a21d9ae61, 0x64befef28cc970f2, 0x613670957bc46611,
          0xb87c5a554fd00ecb, 0x8c3ee88a1ccf32c8, 0x940c7922ae3a2614,
          0x1841f924a2c509e4, 0x16f53526e70465c2, 0x75f644e97f30a13b,
          0xeaf1ff7b5ceca249] := by
  decide

set_option maxRecDepth 100000 in
set_option maxHeartbeats 2000000 in
theorem cex_outputs_ne :
    limbsOf (keccakF (lanesOfInput (toLanes cexZero))) 0 0 0
      ≠ limbsOf (keccakF (lanesOfInput (toLanes cexE))) 0 0 0 := by
  decide

/-- C1, counterexample to the original statement: with the two-instance
input list `[cexZero, cexE]` and `min_rows = 0`, no public-input vector
makes every transition constraint vanish on every pair of consecutive rows.
Rows 23 and 47 both carry `filter = 1` but hold different `A'''[0, 0]` low
limbs, and their output-match constraints read the same public input. -/
theorem claim_C1_counterexample :
    ¬∃ pub : Fin 50 → Int,
      ∀ i : Nat,
        i + 1 < (generate_trace_rows [toLanes cexZero, toLanes cexE] 0).length →
          ∀ c ∈ eval_packed_generic_transition
              ((generate_trace_rows [toLanes cexZero, toLanes cexE] 0).getD i
                zeroRow)
              ((generate_trace_rows [toLanes cexZero, toLanes cexE] 0).getD
                (i + 1) zeroRow)
              pub, c = 0 := by
  rintro ⟨pub, hall⟩
  have hlen := generate_trace_rows_length [toLanes cexZero, toLanes cexE] 0
  have hnum : (generate_trace_rows [toLanes cexZero, toLanes cexE] 0).length
      = 2 ^ Nat.clog 2 48 := by
    rw [hlen]
    rfl
  have h48 : (48 : Nat) ≤ 2 ^ Nat.clog 2 48 := Nat.le_pow_clog (by norm_num) _
  have hne48 : (48 : Nat) ≠ 2 ^ Nat.clog 2 48 := by
    intro he
    have h3 : (3 : Nat) ∣ 2 ^ Nat.clog 2 48 := by
      rw [← he]
      norm_num
    have h32 : (3 : Nat) ∣ 2 := (Nat.Prime.dvd_of_dvd_pow (by norm_num)) h3
    norm_num at h32
  have hL : 48
      < (generate_trace_rows [toLanes cexZero, toLanes cexE] 0).length := by
    rw [hnum]
    omega
  have hget23 : (generate_trace_rows [toLanes cexZero, toLanes cexE] 0).getD 23
      zeroRow = set_filter (perm_round_row (toLanes cexZero) 23) := by
    rw [generate_trace_rows_getD _ 0 23 (by omega)]
    rfl
  have hget47 : (generate_trace_rows [toLanes cexZero, toLanes cexE] 0).getD 47
      zeroRow = set_filter (perm_round_row (toLanes cexE) 23) := by
    rw [generate_trace_rows_getD _ 0 47 (by omega)]
    rfl
  have hfilt : ∀ v : KRow Int, (set_filter v).filter = 1 := fun _ => rfl
  have happ : ∀ (v : KRow Int) (x y : Fin 5) (l : Fin 2),
      (set_filter v).reg_a_prime_prime_prime x y l
        = v.reg_a_prime_prime_prime x y l := fun _ _ _ _ => rfl
  have hb0 : Bounded64 (lanesOfInput (toLanes cexZero)) := toLanes_bounded cexZero
  have hb1 : Bounded64 (lanesOfInput (toLanes cexE)) := toLanes_bounded cexE
  have hv23 : (perm_round_row (toLanes cexZero) 23).reg_a_prime_prime_prime 0 0 0
      = limbsOf (keccakF (lanesOfInput (toLanes cexZero))) 0 0 0 :=
    perm_round_row_appp _ hb0 23 0 0 0
  have hv47 : (perm_round_row (toLanes cexE) 23).reg_a_prime_prime_prime 0 0 0
      = limbsOf (keccakF (lanesOfInput (toLanes cexE))) 0 0 0 :=
    perm_round_row_appp _ hb1 23 0 0 0
  have h23 := hall 23 (by omega) _ (output_match_mem_transition
    ((generate_trace_rows [toLanes cexZero, toLanes cexE] 0).getD 23 zeroRow)
    ((generate_trace_rows [toLanes cexZero, toLanes cexE] 0).getD 24 zeroRow)
    pub 0 0 0)
  have h47 := hall 47 (by omega) _ (output_match_mem_transition
    ((generate_trace_rows [toLanes cexZero, toLanes cexE] 0).getD 47 zeroRow)
    ((generate_trace_rows [toLanes cexZero, toLanes cexE] 0).getD 48 zeroRow)
    pub 0 0 0)
  rw [hget23] at h23
  rw [hget47] at h47
  unfold output_match_constraint at h23 h47
  rw [hfilt, happ, hv23] at h23
  rw [hfilt, happ, hv47] at h47
  exact cex_outputs_ne (by omega)

/-! Pointwise equality of the circuit constraints with the native ones. -/

theorem filter_boolean_circuit_eq {R : Type} [CommRing R] (lv : KRow R) :
    filter_boolean_constraint_circuit lv = filter_boolean_constraint lv := by
  unfold filter_boolean_constraint_circuit filter_boolean_constraint
    mul_sub_extension
  ring

theorem filter_final_circuit_eq {R : Type} [CommRing R] (lv : KRow R) :
    filter_final_step_constraint_circuit lv = filter_final_step_constraint lv :=
  rfl

theorem output_match_circuit_eq {R : Type} [CommRing R] (lv : KRow R)
    (pub : Fin 50 → R) (x y : Fin 5) (l : Fin 2) :
    output_match_constraint_circuit lv pub x y l
      = output_match_constraint lv pub x y l :=
  rfl

theorem c_prime_circuit_eq {R : Type} [CommRing R] (lv : KRow R)
    (x : Fin 5) (z : Fin 64) :
    c_prime_constraint_circuit lv x z = c_prime_constraint lv x z :=
  rfl

theorem a_limb_circuit_eq {R : Type} [CommRing R] (lv : KRow R)
    (x y : Fin 5) (l : Fin 2) :
    a_limb_constraint_circuit lv x y l = a_limb_constraint lv x y l := by
  unfold a_limb_constraint_circuit a_limb_constraint sub_extension
    xor3_gen_circuit
  rw [reduce_with_powers_map_two]

theorem parity_circuit_eq {R : Type} [CommRing R] (lv : KRow R)
    (x : Fin 5) (z : Fin 64) :
    parity_constraint_circuit lv x z = parity_constraint lv x z := by
  unfold parity_constraint_circuit parity_constraint parity_diff
    mul_many_extension add_many_extension sub_extension
  simp only [List.prod_cons, List.prod_nil]
  ring

theorem a_prime_prime_circuit_eq {R : Type} [CommRing R] (lv : KRow R)
    (x y : Fin 5) (l : Fin 2) :
    a_prime_prime_constraint_circuit lv x y l
      = a_prime_prime_constraint lv x y l := by
  unfold a_prime_prime_constraint_circuit a_prime_prime_constraint
    sub_extension xor_gen_circuit andn_gen_circuit
  rw [reduce_with_powers_map_two]

theorem bit_decomp_circuit_eq {R : Type} [CommRing R] (lv : KRow R) (l : Fin 2) :
    bit_decomp_constraint_circuit lv l = bit_decomp_constraint lv l := by
  unfold bit_decomp_constraint_circuit bit_decomp_constraint sub_extension
  rw [reduce_with_powers_map_two]

theorem foldl_add_comm_eq {R : Type} [CommRing R] {α : Type} (f : α → R)
    (l : List α) (a : R) :
    l.foldl (fun acc r => f r + acc) a = l.foldl (fun acc r => acc + f r) a := by
  induction l generalizing a with
  | nil => rfl
  | cons x xs ih =>
    simp only [List.foldl_cons]
    rw [add_comm (f x) a, ih]

theorem rc_bit_circuit_eq {R : Type} [CommRing R] (lv : KRow R) (i : Nat) :
    rc_bit_selected_circuit lv i = rc_bit_selected lv i := by
  unfold rc_bit_selected_circuit rc_bit_selected mul_add_extension
  exact foldl_add_comm_eq (fun r => lv.step r * (rc_value_bit r.val i : R)) _ 0

theorem iota_circuit_eq {R : Type} [CommRing R] (lv : KRow R) (l : Fin 2) :
    iota_constraint_circuit lv l = iota_constraint lv l := by
  unfold iota_constraint_circuit iota_constraint sub_extension xor_gen_circuit
  simp only [rc_bit_circuit_eq]
  rw [reduce_with_powers_map_two]

theorem chaining_circuit_eq {R : Type} [CommRing R] (lv nv : KRow R)
    (x y : Fin 5) (l : Fin 2) :
    chaining_constraint_circuit lv nv x y l = chaining_constraint lv nv x y l := by
  unfold chaining_constraint_circuit chaining_constraint mul_sub_extension
    sub_extension
  ring

theorem eval_circuit_local_eq {R : Type} [CommRing R] (lv : KRow R) :
    eval_ext_circuit_local lv = eval_packed_generic_local lv := by
  unfold eval_ext_circuit_local eval_packed_generic_local
  simp only [filter_boolean_circuit_eq, filter_final_circuit_eq,
    c_prime_circuit_eq, a_limb_circuit_eq, parity_circuit_eq,
    a_prime_prime_circuit_eq, bit_decomp_circuit_eq, iota_circuit_eq]

theorem eval_circuit_transition_eq {R : Type} [CommRing R] (lv nv : KRow R)
    (pub : Fin 50 → R) :
    eval_ext_circuit_transition lv nv pub
      = eval_packed_generic_transition lv nv pub := by
  unfold eval_ext_circuit_transition eval_packed_generic_transition
  simp only [output_match_circuit_eq, chaining_circuit_eq]

/-- C2 (amended): over any commutative ring, the circuit evaluator emits the
same per-row and transition constraint lists as the native evaluator,
constraint for constraint; hence it accepts exactly the assignments the
native evaluator accepts and rejects exactly those it rejects.  (The
parenthetical of the original claim is wrong: the circuit chaining
constraint is identical to the native one, not its negation — see the
counterexample.) -/
theorem claim_C2_amended {R : Type} [CommRing R] (lv nv : KRow R)
    (pub : Fin 50 → R) :
    eval_ext_circuit_local lv = eval_packed_generic_local lv
      ∧ eval_ext_circuit_transition lv nv pub
          = eval_packed_generic_transition lv nv pub
      ∧ ((∀ c ∈ eval_ext_circuit_local lv, c = 0)
          ↔ ∀ c ∈ eval_packed_generic_local lv, c = 0)
      ∧ ((∀ c ∈ eval_ext_circuit_transition lv nv pub, c = 0)
          ↔ ∀ c ∈ eval_packed_generic_transition lv nv pub, c = 0) := by
  refine ⟨eval_circuit_local_eq lv, eval_circuit_transition_eq lv nv pub, ?_, ?_⟩
  · rw [eval_circuit_local_eq lv]
  · rw [eval_circuit_transition_eq lv nv pub]

/-! Total degrees of the constraints, expanded as polynomials in the
current-row, next-row and public-input variables. -/

theorem deg_two : ((2 : KPoly)).totalDegree = 0 := by
  rw [(by norm_num : (2 : KPoly) = MvPolynomial.C 2), MvPolynomial.totalDegree_C]

theorem deg_four : ((4 : KPoly)).totalDegree = 0 := by
  rw [(by norm_num : (4 : KPoly) = MvPolynomial.C 4), MvPolynomial.totalDegree_C]

theorem deg_natCast (k : ℕ) : ((k : KPoly)).totalDegree = 0 := by
  rw [← map_natCast (MvPolynomial.C : Int →+* KPoly) k, MvPolynomial.totalDegree_C]

theorem deg_one_le {n : ℕ} : ((1 : KPoly)).totalDegree ≤ n := by
  rw [MvPolynomial.totalDegree_one]
  exact Nat.zero_le n

theorem deg_zero_le {n : ℕ} : ((0 : KPoly)).totalDegree ≤ n := by
  rw [MvPolynomial.totalDegree_zero]
  exact Nat.zero_le n

theorem deg_two_le {n : ℕ} : ((2 : KPoly)).totalDegree ≤ n := by
  rw [deg_two]
  exact Nat.zero_le n

theorem deg_four_le {n : ℕ} : ((4 : KPoly)).totalDegree ≤ n := by
  rw [deg_four]
  exact Nat.zero_le n

theorem deg_add_le {p q : KPoly} {n : ℕ} (hp : p.totalDegree ≤ n)
    (hq : q.totalDegree ≤ n) : (p + q).totalDegree ≤ n :=
  le_trans (MvPolynomial.totalDegree_add p q) (max_le hp hq)

theorem deg_sub_le {p q : KPoly} {n : ℕ} (hp : p.totalDegree ≤ n)
    (hq : q.totalDegree ≤ n) : (p - q).totalDegree ≤ n := by
  rw [sub_eq_add_neg]
  refine deg_add_le hp ?_
  rw [MvPolynomial.totalDegree_neg]
  exact hq

theorem deg_mul_le {p q : KPoly} {m n : ℕ} (hp : p.totalDegree ≤ m)
    (hq : q.totalDegree ≤ n) : (p * q).totalDegree ≤ m + n :=
  le_trans (MvPolynomial.totalDegree_mul p q) (add_le_add hp hq)

theorem deg_X_le (v : KVar) : (MvPolynomial.X v : KPoly).totalDegree ≤ 1 :=
  le_of_eq (MvPolynomial.totalDegree_X v)

theorem deg_xor_gen {p q : KPoly} {m n : ℕ} (hp : p.totalDegree ≤ m)
    (hq : q.totalDegree ≤ n) : (xor_gen p q).totalDegree ≤ m + n := by
  unfold xor_gen
  apply deg_sub_le
  · exact deg_add_le (le_trans hp (Nat.le_add_right m n))
      (le_trans hq (Nat.le_add_left n m))
  · have h2q : ((2 : KPoly) * q).totalDegree ≤ n := by
      have h := deg_mul_le (le_of_eq deg_two) hq
      omega
    exact deg_mul_le hp h2q

theorem deg_xor3 {p q r : KPoly} (hp : p.totalDegree ≤ 1)
    (hq : q.totalDegree ≤ 1) (hr : r.totalDegree ≤ 1) :
    (xor3_gen p q r).totalDegree ≤ 3 := by
  unfold xor3_gen
  have h2 : (xor_gen q r).totalDegree ≤ 2 := deg_xor_gen hq hr
  have h3 := deg_xor_gen hp h2
  omega

theorem deg_andn {p q : KPoly} (hp : p.totalDegree ≤ 1)
    (hq : q.totalDegree ≤ 1) : (andn_gen p q).totalDegree ≤ 2 := by
  unfold andn_gen
  exact deg_mul_le (deg_sub_le deg_one_le hp) hq

theorem deg_foldl_two {g : Nat → KPoly} {n : ℕ}
    (hg : ∀ z, (g z).totalDegree ≤ n) :
    ∀ (l : List Nat) (a : KPoly), a.totalDegree ≤ n →
      (l.foldl (fun acc z => 2 * acc + g z) a).totalDegree ≤ n := by
  intro l
  induction l with
  | nil => intro a ha; exact ha
  | cons x xs ih =>
    intro a ha
    rw [List.foldl_cons]
    refine ih _ (deg_add_le ?_ (hg x))
    have h := deg_mul_le (le_of_eq deg_two) ha
    omega

theorem deg_reassemble {g : Nat → KPoly} {n : ℕ}
    (hg : ∀ z, (g z).totalDegree ≤ n) (s : Nat) :
    (reassemble g s).totalDegree ≤ n := by
  unfold reassemble
  exact deg_foldl_two hg _ _ deg_zero_le

theorem deg_foldl_add {α : Type} (f : α → KPoly) (n : ℕ)
    (hf : ∀ r, (f r).totalDegree ≤ n) :
    ∀ (l : List α) (a : KPoly), a.totalDegree ≤ n →
      (l.foldl (fun acc r => acc + f r) a).totalDegree ≤ n := by
  intro l
  induction l with
  | nil => intro a ha; exact ha
  | cons x xs ih =>
    intro a ha
    rw [List.foldl_cons]
    exact ih _ (deg_add_le ha (hf x))

theorem deg_list_sum {α : Type} (f : α → KPoly) (n : ℕ)
    (hf : ∀ r, (f r).totalDegree ≤ n) :
    ∀ l : List α, ((l.map f).sum).totalDegree ≤ n := by
  intro l
  induction l with
  | nil =>
    rw [List.map_nil, List.sum_nil]
    exact deg_zero_le
  | cons x xs ih =>
    rw [List.map_cons, List.sum_cons]
    exact deg_add_le (hf x) ih

theorem deg_reg_b_poly (x y : Fin 5) (z : Fin 64) :
    ((locRow.reg_b x y z)).totalDegree ≤ 1 :=
  deg_X_le _

theorem deg_reg_appp_poly (x y : Fin 5) (l : Fin 2) :
    ((locRow.reg_a_prime_prime_prime x y l)).totalDegree ≤ 1 := by
  unfold KRow.reg_a_prime_prime_prime
  split
  · exact deg_X_le _
  · exact deg_X_le _

theorem deg_filter_boolean :
    (filter_boolean_constraint locRow).totalDegree ≤ 3 := by
  unfold filter_boolean_constraint
  have h : (locRow.filter * (locRow.filter - 1)).totalDegree ≤ 2 :=
    deg_mul_le (deg_X_le _) (deg_sub_le (deg_X_le _) deg_one_le)
  omega

theorem deg_filter_final :
    (filter_final_step_constraint locRow).totalDegree ≤ 3 := by
  unfold filter_final_step_constraint
  have h : ((1 - locRow.step 23) * locRow.filter).totalDegree ≤ 2 :=
    deg_mul_le (deg_sub_le deg_one_le (deg_X_le _)) (deg_X_le _)
  omega

theorem deg_c_prime_poly (x : Fin 5) (z : Fin 64) :
    (c_prime_constraint locRow x z).totalDegree ≤ 3 := by
  unfold c_prime_constraint
  exact deg_sub_le (le_trans (deg_X_le _) (by omega))
    (deg_xor3 (deg_X_le _) (deg_X_le _) (deg_X_le _))

theorem deg_a_limb_poly (x y : Fin 5) (l : Fin 2) :
    (a_limb_constraint locRow x y l).totalDegree ≤ 3 := by
  unfold a_limb_constraint
  exact deg_sub_le
    (deg_reassemble (fun z => deg_xor3 (deg_X_le _) (deg_X_le _) (deg_X_le _)) _)
    (le_trans (deg_X_le _) (by omega))

theorem deg_parity_diff_poly (x : Fin 5) (z : Fin 64) :
    (parity_diff locRow x z).totalDegree ≤ 1 := by
  unfold parity_diff
  apply deg_sub_le ?_ (deg_X_le _)
  simp only [List.map_cons, List.map_nil, List.sum_cons, List.sum_nil, add_zero]
  exact deg_add_le (deg_X_le _) (deg_add_le (deg_X_le _)
    (deg_add_le (deg_X_le _) (deg_add_le (deg_X_le _) (deg_X_le _))))

theorem deg_parity_poly (x : Fin 5) (z : Fin 64) :
    (parity_constraint locRow x z).totalDegree ≤ 3 := by
  unfold parity_constraint
  have hd := deg_parity_diff_poly x z
  have h2 : (parity_diff locRow x z - 2).totalDegree ≤ 1 :=
    deg_sub_le hd deg_two_le
  have h4 : (parity_diff locRow x z - 4).totalDegree ≤ 1 :=
    deg_sub_le hd deg_four_le
  have h := deg_mul_le (deg_mul_le hd h2) h4
  omega

theorem deg_app_poly (x y : Fin 5) (l : Fin 2) :
    (a_prime_prime_constraint locRow x y l).totalDegree ≤ 3 := by
  unfold a_prime_prime_constraint
  refine deg_sub_le (deg_reassemble (fun z => ?_) _)
    (le_trans (deg_X_le _) (by omega))
  have h := deg_xor_gen (deg_reg_b_poly x y (finz z))
    (deg_andn (deg_reg_b_poly (x + 1) y (finz z))
      (deg_reg_b_poly (x + 2) y (finz z)))
  omega

theorem deg_bit_poly (l : Fin 2) :
    (bit_decomp_constraint locRow l).totalDegree ≤ 3 := by
  unfold bit_decomp_constraint
  exact deg_sub_le
    (deg_reassemble (fun z => le_trans (deg_X_le _) (by omega)) _)
    (le_trans (deg_X_le _) (by omega))

theorem deg_rc_poly (i : Nat) : (rc_bit_selected locRow i).totalDegree ≤ 1 := by
  unfold rc_bit_selected
  refine deg_foldl_add _ 1 (fun r => ?_) _ 0 deg_zero_le
  have h : (locRow.step r * ((rc_value_bit r.val i : KPoly))).totalDegree ≤ 1 + 0 :=
    deg_mul_le (deg_X_le _) (le_of_eq (deg_natCast _))
  omega

theorem deg_iota_poly (l : Fin 2) :
    (iota_constraint locRow l).totalDegree ≤ 3 := by
  unfold iota_constraint
  refine deg_sub_le (deg_reassemble (fun z => ?_) _)
    (le_trans (deg_X_le _) (by omega))
  have h : (xor_gen (locRow.aPrimePrime00Bit (finz z))
      (rc_bit_selected locRow z)).totalDegree ≤ 1 + 1 :=
    deg_xor_gen (deg_X_le _) (deg_rc_poly z)
  omega

theorem deg_output_match_poly (x y : Fin 5) (l : Fin 2) :
    (output_match_constraint locRow pubPoly x y l).totalDegree ≤ 3 := by
  unfold output_match_constraint
  have h : (locRow.filter * (locRow.reg_a_prime_prime_prime x y l
      - pubPoly (pubIndex x y l))).totalDegree ≤ 2 :=
    deg_mul_le (deg_X_le _) (deg_sub_le (deg_reg_appp_poly x y l) (deg_X_le _))
  omega

theorem deg_chaining_poly (x y : Fin 5) (l : Fin 2) :
    (chaining_constraint locRow nxtRow x y l).totalDegree ≤ 3 := by
  unfold chaining_constraint
  have h : ((1 - locRow.step 23) * (locRow.reg_a_prime_prime_prime x y l
      - nxtRow.a x y l)).totalDegree ≤ 2 :=
    deg_mul_le (deg_sub_le deg_one_le (deg_X_le _))
      (deg_sub_le (deg_reg_appp_poly x y l) (deg_X_le _))
  omega

theorem poly_local_deg : ∀ p ∈ eval_packed_generic_local locRow,
    p.totalDegree ≤ 3 := by
  intro p hp
  unfold eval_packed_generic_local at hp
  simp only [List.mem_append, List.mem_flatMap, List.mem_map, List.mem_cons,
    List.mem_finRange, true_and, List.not_mem_nil, or_false] at hp
  rcases hp with ((((((hp | hp) | hp) | hp) | hp) | hp) | hp) | hp
  · unfold round_flags_local at hp
    simp only [List.mem_append, List.mem_map, List.mem_cons, List.mem_finRange,
      true_and, List.not_mem_nil, or_false] at hp
    rcases hp with ⟨r, hr⟩ | hp
    · rw [← hr]
      have h : (locRow.step r * (locRow.step r - 1)).totalDegree ≤ 2 :=
        deg_mul_le (deg_X_le _) (deg_sub_le (deg_X_le _) deg_one_le)
      omega
    · rw [hp]
      exact deg_sub_le
        (deg_list_sum locRow.step 3 (fun r => le_trans (deg_X_le _) (by omega)) _)
        deg_one_le
  · rcases hp with hp | hp <;> rw [hp]
    · exact deg_filter_boolean
    · exact deg_filter_final
  · obtain ⟨x, z, hz⟩ := hp
    rw [← hz]
    exact deg_c_prime_poly x z
  · obtain ⟨x, y, hy⟩ := hp
    rcases hy with h | h <;> rw [h]
    · exact deg_a_limb_poly x y 0
    · exact deg_a_limb_poly x y 1
  · obtain ⟨x, z, hz⟩ := hp
    rw [← hz]
    exact deg_parity_poly x z
  · obtain ⟨x, y, hy⟩ := hp
    rcases hy with h | h <;> rw [h]
    · exact deg_app_poly x y 0
    · exact deg_app_poly x y 1
  · rcases hp with h | h <;> rw [h]
    · exact deg_bit_poly 0
    · exact deg_bit_poly 1
  · rcases hp with h | h <;> rw [h]
    · exact deg_iota_poly 0
    · exact deg_iota_poly 1

theorem poly_transition_deg :
    ∀ p ∈ eval_packed_generic_transition locRow nxtRow pubPoly,
      p.totalDegree ≤ 3 := by
  intro p hp
  unfold eval_packed_generic_transition at hp
  simp only [List.mem_append, List.mem_flatMap, List.mem_cons,
    List.mem_finRange, true_and, List.not_mem_nil, or_false] at hp
  rcases hp with (hp | hp) | hp
  · unfold round_flags_transition at hp
    simp only [List.mem_map, List.mem_finRange, true_and] at hp
    obtain ⟨r, hr⟩ := hp
    rw [← hr]
    exact deg_sub_le (le_trans (deg_X_le _) (by omega))
      (le_trans (deg_X_le _) (by omega))
  · obtain ⟨x, y, hy⟩ := hp
    rcases hy with h | h <;> rw [h]
    · exact deg_output_match_poly x y 0
    · exact deg_output_match_poly x y 1
  · obtain ⟨x, y, hy⟩ := hp
    rcases hy with h | h <;> rw [h]
    · exact deg_chaining_poly x y 0
    · exact deg_chaining_poly x y 1

/-! The parity cubic attains total degree exactly 3: restricting the
polynomial to the line where only one variable is free turns a polynomial of
total degree at most 2 into a univariate polynomial of degree at most 2,
whose third finite difference vanishes; the parity cubic's does not. -/

theorem eval_line (p : KPoly) (v0 : KVar) (t : Int) :
    MvPolynomial.eval (fun v => if v = v0 then t else 0) p
      = ∑ m ∈ p.support.filter (fun m => m.support ⊆ {v0}),
          MvPolynomial.coeff m p * t ^ m v0 := by
  conv_lhs => rw [MvPolynomial.as_sum p]
  rw [map_sum, Finset.sum_filter]
  apply Finset.sum_congr rfl
  intro m hm
  rw [MvPolynomial.eval_monomial]
  by_cases hsub : m.support ⊆ {v0}
  · rw [if_pos hsub]
    congr 1
    rcases Finset.subset_singleton_iff.mp hsub with he | he
    · have hm0 : m = 0 := Finsupp.support_eq_empty.mp he
      subst hm0
      simp [Finsupp.prod]
    · simp only [Finsupp.prod]
      rw [he, Finset.prod_singleton, if_pos rfl]
  · rw [if_neg hsub]
    have hex : ∃ v ∈ m.support, v ≠ v0 := by
      by_contra hno
      push_neg at hno
      exact hsub fun v hv => Finset.mem_singleton.mpr (hno v hv)
    obtain ⟨v, hv, hne⟩ := hex
    have h0 : (m.prod fun w e => (if w = v0 then t else 0) ^ e) = 0 := by
      simp only [Finsupp.prod]
      refine Finset.prod_eq_zero hv ?_
      rw [if_neg hne]
      exact zero_pow (Finsupp.mem_support_iff.mp hv)
    rw [h0, mul_zero]

theorem third_diff_zero (p : KPoly) (v0 : KVar)
    (hdeg : p.totalDegree ≤ 2) :
    MvPolynomial.eval (fun v => if v = v0 then (3 : Int) else 0) p
        - 3 * MvPolynomial.eval (fun v => if v = v0 then (2 : Int) else 0) p
        + 3 * MvPolynomial.eval (fun v => if v = v0 then (1 : Int) else 0) p
        - MvPolynomial.eval (fun v => if v = v0 then (0 : Int) else 0) p = 0 := by
  rw [eval_line p v0 3, eval_line p v0 2, eval_line p v0 1, eval_line p v0 0,
    Finset.mul_sum, Finset.mul_sum, ← Finset.sum_sub_distrib,
    ← Finset.sum_add_distrib, ← Finset.sum_sub_distrib]
  apply Finset.sum_eq_zero
  intro m hm
  have hmem : m ∈ p.support := (Finset.mem_filter.mp hm).1
  have hk : m v0 ≤ 2 := by
    have hs := MvPolynomial.le_totalDegree hmem
    have hv : m v0 ≤ m.sum fun _ e => e := by
      by_cases hv0 : v0 ∈ m.support
      · simp only [Finsupp.sum]
        exact Finset.single_le_sum (fun i _ => Nat.zero_le _) hv0
      · rw [Finsupp.not_mem_support_iff.mp hv0]
        exact Nat.zero_le _
    omega
  set k := m v0 with hkdef
  interval_cases k <;> ring

theorem parity_eval (t : Int) :
    MvPolynomial.eval
        (fun v => if v = KVar.loc (KCol.vaPrime 0 0 0) then t else 0)
        (parity_constraint locRow 0 0)
      = t * (t - 2) * (t - 4) := by
  have hne1 : KVar.loc (KCol.vaPrime 0 1 0) ≠ KVar.loc (KCol.vaPrime 0 0 0) := by
    decide
  have hne2 : KVar.loc (KCol.vaPrime 0 2 0) ≠ KVar.loc (KCol.vaPrime 0 0 0) := by
    decide
  have hne3 : KVar.loc (KCol.vaPrime 0 3 0) ≠ KVar.loc (KCol.vaPrime 0 0 0) := by
    decide
  have hne4 : KVar.loc (KCol.vaPrime 0 4 0) ≠ KVar.loc (KCol.vaPrime 0 0 0) := by
    decide
  have hnec : KVar.loc (KCol.vcPrime 0 0) ≠ KVar.loc (KCol.vaPrime 0 0 0) := by
    decide
  unfold parity_constraint parity_diff
  simp [locRow, varOf, hne1, hne2, hne3, hne4, hnec]

theorem parity_poly_deg : (parity_constraint locRow 0 0).totalDegree = 3 := by
  apply le_antisymm (deg_parity_poly 0 0)
  by_contra hlt
  push_neg at hlt
  have hdeg : (parity_constraint locRow 0 0).totalDegree ≤ 2 := by omega
  have h0 := third_diff_zero _ (KVar.loc (KCol.vaPrime 0 0 0)) hdeg
  rw [parity_eval 3, parity_eval 2, parity_eval 1, parity_eval 0] at h0
  norm_num at h0

/-- C9: every constraint the native evaluator emits, expanded as a
polynomial in the current-row, next-row and public-input variables, has
total degree at most 3; the evaluator's declared `constraint_degree` is
exactly 3; and the chi-input parity cubic, one of the emitted per-row
constraints, attains total degree exactly 3. -/
theorem claim_C9 :
    (∀ p ∈ eval_packed_generic_local locRow, p.totalDegree ≤ 3)
      ∧ (∀ p ∈ eval_packed_generic_transition locRow nxtRow pubPoly,
          p.totalDegree ≤ 3)
      ∧ constraint_degree = 3
      ∧ (parity_constraint locRow 0 0).totalDegree = 3
      ∧ parity_constraint locRow 0 0 ∈ eval_packed_generic_local locRow :=
  ⟨poly_local_deg, poly_transition_deg, rfl, parity_poly_deg,
    parity_mem_local locRow 0 0⟩

/-- C2, counterexample to the parenthetical of the original statement: at a
concrete assignment the circuit chaining constraint equals the native one
(both are 1), so it is not the native constraint's negation. -/
theorem claim_C2_counterexample :
    chaining_constraint_circuit cexRow zeroRow (0 : Fin 5) (0 : Fin 5) (0 : Fin 2)
        = chaining_constraint cexRow zeroRow 0 0 0
      ∧ chaining_constraint cexRow zeroRow (0 : Fin 5) (0 : Fin 5) (0 : Fin 2) = 1
      ∧ chaining_constraint_circuit cexRow zeroRow 0 0 0
          ≠ - chaining_constraint cexRow zeroRow 0 0 0 := by
  refine ⟨?_, ?_, ?_⟩ <;> decide

end KeccakStark
